import Mathlib

/-!
Shallow embedding of the EPUB reading-order reconstruction core
(`reading_core.py`) and proofs about it.

Modelling conventions:

* An HTML fragment (a BeautifulSoup node list) is modelled as `List Node`.
  Paragraphs, asides (whose children are the texts of their `<p>` children),
  page-number `<div class="epub-page-number">` containers, lists, tables,
  ignorable media tags, other (non-ignorable) tags, text nodes and comments
  are each a constructor.  Tag text content is carried as a `String`;
  `get_text(strip=True)` is modelled by `pystrip` (char-level strip),
  `get_text(" ", strip=True)` followed by whitespace collapsing by `clean`.
* Python floats (CSS coordinates, tolerances and thresholds) are modelled
  as `Rat`; all coordinate comparisons in the source involve values where
  IEEE rounding cannot change a comparison against the literal thresholds.
* Python `list.sort(key=...)` (stable) is modelled by `List.insertionSort`
  with a total preorder, which is stable for the same reason Timsort is:
  an element is inserted before the first later element it is ≤ to.
* Nested lists in the text linearizer are modelled to depth two (a list of
  items each carrying direct sub-lists of plain items), which covers every
  list shape the pipeline itself constructs.
-/

namespace ReadingCore

attribute [local semireducible] Rat.add Rat.sub Rat.mul Rat.inv

/-! ## String helpers (tidy_text, strip, first-word analysis) -/

/-- Strip leading and trailing whitespace from a character list (Python
`str.strip`). -/
def trimL (cs : List Char) : List Char :=
  ((cs.dropWhile Char.isWhitespace).reverse.dropWhile Char.isWhitespace).reverse

/-- Model of Python `str.strip()` / BeautifulSoup `get_text(strip=True)` on
a single text child. -/
def pystrip (s : String) : String := String.mk (trimL s.data)

/-- The maximal whitespace-separated words of a character list. -/
def wsWords : List Char → List (List Char)
  | [] => []
  | c :: cs =>
    if c.isWhitespace then wsWords cs
    else
      match wsWords cs, cs with
      | [], _ => [[c]]
      | _ :: _, [] => [[c]]
      | r :: rs, c2 :: _ => if c2.isWhitespace then [c] :: (r :: rs) else (c :: r) :: rs

/-- Model of `re.sub` whitespace collapsing composed with `strip`. -/
def clean (s : String) : String :=
  String.intercalate " " ((wsWords s.data).map (fun w => String.mk w))

/-- Model of the source's `ends_with_dot`: the stripped text is non-empty and
ends with a period.  (An empty string never ends with ".", so the
non-emptiness test of the source is subsumed.) -/
def ends_with_dot (t : String) : Bool := (trimL t.data).getLast? = some '.'

/-- Whether the stripped text ends in terminal punctuation `. ! ?` — the
predicate the specification describes for the merge passes. -/
def ends_with_terminal (t : String) : Bool :=
  (trimL t.data).getLast? = some '.' || (trimL t.data).getLast? = some '!'
    || (trimL t.data).getLast? = some '?'

/-- Model of the sibling-splice in the merge passes: append a single space
separator when the current text is non-empty and does not already end in
one of `" "`, `"\n"`, `"\t"` (`current_text.endswith((" ", "\n", "\t"))`,
stated on the last character), then append the sibling's text. -/
def join_with_space (t u : String) : String :=
  if t ≠ "" ∧ ¬ (t.data.getLast? = some ' ' ∨ t.data.getLast? = some '\n'
      ∨ t.data.getLast? = some '\t') then
    t ++ " " ++ u
  else t ++ u

/-- A word character for the purposes of `first_word_has_uppercase`:
the leading strip `re.sub(r'^[\s\W_]+', '', txt)` removes whitespace,
non-word characters and underscores, so it stops exactly at the first
alphanumeric character. -/
def wordChar (c : Char) : Bool := c.isAlphanum

/-- First word of a character list: strip leading non-word characters, then
take up to the first whitespace character. -/
def fwcL (cs : List Char) : List Char :=
  (cs.dropWhile (fun c => ¬ wordChar c)).takeWhile (fun c => ¬ c.isWhitespace)

/-- The first word examined by the source's `first_word_has_uppercase`:
strip leading non-alphanumeric characters, then take up to the first
whitespace character. -/
def first_word_chars (s : String) : List Char := fwcL s.data

/-- Model of the source's `first_word_has_uppercase`: some character of the
first word is uppercase.  (The early returns of the source for empty /
all-stripped text coincide with `List.any` on an empty list.) -/
def first_word_has_uppercase (s : String) : Bool :=
  (first_word_chars s).any Char.isUpper

/-- Whether the first word begins with an uppercase letter (the hypothesis
the specification states for the cross-paragraph merge). -/
def first_word_begins_uppercase (s : String) : Bool :=
  match first_word_chars s with
  | [] => false
  | c :: _ => c.isUpper

/-- Digits test used by the page-number extractor (`str.isdigit` on the
stripped text: non-empty and all digits). -/
def isDigits (s : String) : Bool := s ≠ "" && s.data.all Char.isDigit

/-- Model of `nums[-1].lstrip("0") or "0"`: strip leading zeros from a digit
run, normalizing an all-zero run to "0". -/
def lstrip0 (d : List Char) : String :=
  if (d.dropWhile (fun c => c = '0')).isEmpty then "0"
  else String.mk (d.dropWhile (fun c => c = '0'))

/-- The run-accumulating scan behind `digitRuns` — model of
`re.findall(r"(\d+)", text)`. -/
def digitRunsAux : List Char → List Char → List (List Char)
  | [], acc => if acc.isEmpty then [] else [acc.reverse]
  | c :: cs, acc =>
    if c.isDigit then digitRunsAux cs (c :: acc)
    else if acc.isEmpty then digitRunsAux cs [] else acc.reverse :: digitRunsAux cs []

/-- Maximal digit runs of a character list, in order. -/
def digitRuns (cs : List Char) : List (List Char) := digitRunsAux cs []

/-- Numeric value of a digit string, as `int(...)` parses it. -/
def natOfDigits (d : List Char) : Nat :=
  d.foldl (fun a c => 10 * a + (c.toNat - 48)) 0

/-- Model of `str(int(s))` on an all-digit string `s`. -/
def pyIntStr (s : String) : String := toString (natOfDigits s.data)

/-! ## The fragment model -/

/-- A sub-list (one level of nesting) inside a list item, for the text
linearizer: ordered flag, `type` attribute, `start` attribute, item texts. -/
structure SubList where
  ordered : Bool
  typ : String
  start : Nat
  items : List String
deriving Repr, DecidableEq

/-- A list item: its own text plus its direct sub-lists. -/
structure LItem where
  txt : String
  subs : List SubList
deriving Repr, DecidableEq

/-- A top-level `<ol>`/`<ul>` element. -/
structure HtmlList where
  ordered : Bool
  typ : String
  start : Nat
  items : List LItem
deriving Repr, DecidableEq

/-- A table cell: whether it is a `<th>`, and its text. -/
structure Cell where
  th : Bool
  txt : String
deriving Repr, DecidableEq

/-- A node of an HTML fragment, as the repair passes see it.
`aside ps` is an `<aside>` whose `<p>` children have texts `ps`;
`pnDiv` is a `<div class="epub-page-number">`; `media` is an ignorable
media tag (`figure`, `img`, `picture`, `svg`, `br`, `hr`, or a media-only
container); `otherTag` is any other non-ignorable tag (for example `h2`
or a `div` that contains a `<p>`). -/
inductive Node where
  | p (txt : String)
  | aside (ps : List String)
  | pnDiv (txt : String)
  | hlist (l : HtmlList)
  | htable (rows : List (List Cell))
  | media
  | otherTag
  | textNode (s : String)
  | comment (s : String)
deriving Repr, DecidableEq

/-- Model of the source's `_is_ignorable_media_node`: comments are
ignorable, text nodes are ignorable when pure whitespace, the media tags
are ignorable, every other tag is not. -/
def is_ignorable_media_node : Node → Bool
  | .comment _ => true
  | .textNode s => trimL s.data = []
  | .media => true
  | _ => false

/-- Scan a sibling list for the first non-ignorable node, returning the
skipped (all ignorable) prefix, the node found, and the remaining suffix. -/
def scan_non_ignorable : List Node → Option (List Node × Node × List Node)
  | [] => none
  | n :: l =>
    if is_ignorable_media_node n then
      match scan_non_ignorable l with
      | none => none
      | some (pre, x, rest) => some (n :: pre, x, rest)
    else some ([], n, l)

/-! ## Aside-trailing merge (`merge_outside_p_after_aside`) -/

/-- One aside's absorption loop (`while not ends_with_dot(last_p): ...`),
with explicit fuel.  `t` is the current text of the aside's last `<p>`;
the list is the aside's following-sibling list.  Skipped ignorable
siblings stay in place; an absorbed `<p>` is extracted. -/
def aside_absorb_fuel : Nat → String → List Node → String × List Node
  | 0, t, l => (t, l)
  | fuel + 1, t, l =>
    if ends_with_dot t then (t, l)
    else
      match scan_non_ignorable l with
      | some (pre, Node.p u, rest) =>
        let r := aside_absorb_fuel fuel (join_with_space t u) rest
        (r.1, pre ++ r.2)
      | _ => (t, l)

/-- The absorption loop run with sufficient fuel (the loop extracts at
least one sibling per iteration, so `l.length` iterations suffice). -/
def aside_absorb (t : String) (l : List Node) : String × List Node :=
  aside_absorb_fuel l.length t l

/-- One step of `merge_outside_p_after_aside` over the top-level node list,
with fuel: each aside absorbs following sibling paragraphs into its last
`<p>` while that text does not end with "."; asides with no `<p>` are
left alone. -/
def merge_outside_aux : Nat → List Node → List Node
  | 0, l => l
  | _ + 1, [] => []
  | fuel + 1, Node.aside ps :: l =>
    match ps.getLast? with
    | none => Node.aside ps :: merge_outside_aux fuel l
    | some lastp =>
      let r := aside_absorb lastp l
      Node.aside (ps.dropLast ++ [r.1]) :: merge_outside_aux fuel r.2
  | fuel + 1, n :: l => n :: merge_outside_aux fuel l

/-- Model of the source's `merge_outside_p_after_aside`, processing asides
in document order. -/
def merge_outside_p_after_aside (l : List Node) : List Node :=
  merge_outside_aux l.length l

/-! ## Cross-paragraph sentence merge (`ensure_paragraphs_end_with_dot`) -/

/-- One paragraph's absorption loop with explicit fuel: while the paragraph
does not end with ".", if the next non-ignorable sibling is a paragraph
whose first word has no uppercase character, splice it in and remove it;
otherwise stop. -/
def p_absorb_fuel : Nat → String → List Node → String × List Node
  | 0, t, l => (t, l)
  | fuel + 1, t, l =>
    if ends_with_dot t then (t, l)
    else
      match scan_non_ignorable l with
      | some (pre, Node.p u, rest) =>
        if first_word_has_uppercase u then (t, l)
        else
          let r := p_absorb_fuel fuel (join_with_space t u) rest
          (r.1, pre ++ r.2)
      | _ => (t, l)

/-- The same absorption loop for paragraphs that are children of an aside:
their sibling list consists of the remaining paragraph texts (no
ignorable nodes in between in the model). -/
def p_absorb_strings_fuel : Nat → String → List String → String × List String
  | 0, t, l => (t, l)
  | fuel + 1, t, l =>
    if ends_with_dot t then (t, l)
    else
      match l with
      | [] => (t, [])
      | u :: rest =>
        if first_word_has_uppercase u then (t, u :: rest)
        else
          let r := p_absorb_strings_fuel fuel (join_with_space t u) rest
          (r.1, r.2)

/-- The merge pass over the paragraphs inside one aside, in document
order. -/
def merge_dots_strings_aux : Nat → List String → List String
  | 0, l => l
  | _ + 1, [] => []
  | fuel + 1, t :: l =>
    let r := p_absorb_strings_fuel l.length t l
    r.1 :: merge_dots_strings_aux fuel r.2

/-- The merge pass over a top-level node list: each paragraph (in document
order, skipping ones already absorbed) runs its absorption loop; asides
are processed on their internal paragraph lists (a sibling scan never
crosses a parent boundary, so the two are independent). -/
def ensure_dots_aux : Nat → List Node → List Node
  | 0, l => l
  | _ + 1, [] => []
  | fuel + 1, Node.p t :: l =>
    let r := p_absorb_fuel l.length t l
    Node.p r.1 :: ensure_dots_aux fuel r.2
  | fuel + 1, Node.aside ps :: l =>
    Node.aside (merge_dots_strings_aux ps.length ps) :: ensure_dots_aux fuel l
  | fuel + 1, n :: l => n :: ensure_dots_aux fuel l

/-- Model of the source's `ensure_paragraphs_end_with_dot`. -/
def ensure_paragraphs_end_with_dot (l : List Node) : List Node :=
  ensure_dots_aux l.length l

/-! ## Page-number extraction (`move_page_number_to_footer`) -/

/-- Whether a node is a `<div class="epub-page-number">` container. -/
def Node.isPnDiv : Node → Bool
  | .pnDiv _ => true
  | _ => false

/-- Texts of the page-number containers, in document order
(`soup.find_all("div", class_="epub-page-number")`). -/
def pnDivTexts (l : List Node) : List String :=
  l.filterMap fun n => match n with | .pnDiv t => some t | _ => none

/-- Remove every page-number container (`for d in pn_divs: d.decompose()`). -/
def stripPnDivs (l : List Node) : List Node := l.filter (fun n => ¬ n.isPnDiv)

/-- Step (a) of the extractor: the last digit run of the last page-number
container's text, leading zeros stripped. -/
def pn_from_divs (l : List Node) : Option String :=
  match (pnDivTexts l).getLast? with
  | none => none
  | some t =>
    match (digitRuns t.data).getLast? with
    | none => none
    | some d => some (lstrip0 d)

/-- Sibling kinds skipped by the trailing-paragraph test of step (b):
page-number divs, ignorable media tags, and strings or comments that are
pure whitespace (a comment's own text is compared against `""` by the
`str(sib).strip()` branch, so a non-empty comment stops the scan). -/
def skip_for_trailing : Node → Bool
  | .pnDiv _ => true
  | .media => true
  | .textNode s => trimL s.data = []
  | .comment s => trimL s.data = []
  | _ => false

/-- Location of a paragraph inside a fragment: either the top-level node at
index `k`, or the last paragraph of the aside at index `k` (the reversed
`find_all("p")` scan of the source also sees paragraphs inside asides,
whose last paragraph has no following sibling and hence counts as
trailing). -/
inductive PLoc where
  | top (k : Nat)
  | innerLast (k : Nat)
deriving Repr, DecidableEq

/-- Shift a paragraph location one node to the right. -/
def locShift : PLoc → PLoc
  | .top k => .top (k + 1)
  | .innerLast k => .innerLast (k + 1)

/-- Whether the head node is a candidate for step (b): an all-digit
paragraph whose following siblings are all skippable, or an aside whose
last paragraph is all-digit (inside the aside that paragraph has no
following sibling, so it always counts as trailing). -/
def step2_head_cand : Node → List Node → Option PLoc
  | Node.p t, rest =>
    if isDigits (pystrip t) && rest.all skip_for_trailing then some (.top 0) else none
  | Node.aside ps, _ =>
    match ps.getLast? with
    | some t => if isDigits (pystrip t) then some (.innerLast 0) else none
    | none => none
  | _, _ => none

/-- The candidate the reversed scan of step (b) acts on: the rightmost
candidate paragraph in document order. -/
def step2_find : List Node → Option PLoc
  | [] => none
  | n :: rest =>
    match step2_find rest with
    | some loc => some (locShift loc)
    | none => step2_head_cand n rest

/-- Replace the node at index `k`. -/
def modifyAt (l : List Node) (k : Nat) (f : Node → Node) : List Node :=
  match l, k with
  | [], _ => []
  | n :: rest, 0 => f n :: rest
  | n :: rest, k + 1 => n :: modifyAt rest k f

/-- The text of the paragraph at a location. -/
def locText (l : List Node) : PLoc → Option String
  | .top k => match l[k]? with | some (Node.p t) => some t | _ => none
  | .innerLast k => match l[k]? with | some (Node.aside ps) => ps.getLast? | _ => none

/-- Step (b)'s effect on the fragment: decompose the paragraph the
reversed scan found (if any). -/
def step2_frag (l : List Node) : List Node :=
  match step2_find l with
  | none => l
  | some (.top k) => l.eraseIdx k
  | some (.innerLast k) =>
    modifyAt l k (fun n => match n with | Node.aside ps => Node.aside ps.dropLast | x => x)

/-- Step (b)'s page-number value (used only when step (a) found none). -/
def step2_val (l : List Node) : Option String :=
  match step2_find l with
  | none => none
  | some loc => (locText l loc).map (fun t => lstrip0 (trimL t.data))

/-- The last paragraph of the fragment in document order (`all_p[-1]`). -/
def last_p_loc : List Node → Option PLoc
  | [] => none
  | n :: rest =>
    match last_p_loc rest with
    | some loc => some (locShift loc)
    | none =>
      match n with
      | Node.p _ => some (.top 0)
      | Node.aside ps => if ps.isEmpty then none else some (.innerLast 0)
      | _ => none

/-- Model of `re.search(r"\s(\d{1,6})\s*$", raw)` followed by
`re.sub(r"\s\d{1,6}\s*$", "", raw)`: after optional trailing whitespace,
a maximal digit run of length 1..6 preceded by a whitespace character;
returns the new text (everything before that whitespace character) and
the digit run. -/
def step3_split (raw : String) : Option (String × List Char) :=
  let r := raw.data.reverse
  let ws := r.takeWhile Char.isWhitespace
  let r2 := r.drop ws.length
  let dsRev := r2.takeWhile Char.isDigit
  let r3 := r2.drop dsRev.length
  if dsRev.length = 0 ∨ dsRev.length > 6 then none
  else
    match r3 with
    | [] => none
    | c :: r4 => if c.isWhitespace then some (String.mk r4.reverse, dsRev.reverse) else none

/-- Step (c)'s match on the very last paragraph. -/
def step3_get (l : List Node) : Option (PLoc × String × List Char) :=
  match last_p_loc l with
  | none => none
  | some loc =>
    match locText l loc with
    | none => none
    | some raw =>
      match step3_split raw with
      | none => none
      | some (newt, ds) => some (loc, newt, ds)

/-- Replace the text of the paragraph at a location. -/
def setLocText (l : List Node) (loc : PLoc) (t : String) : List Node :=
  match loc with
  | .top k => modifyAt l k (fun n => match n with | Node.p _ => Node.p t | x => x)
  | .innerLast k =>
    modifyAt l k (fun n =>
      match n with | Node.aside ps => Node.aside (ps.dropLast ++ [t]) | x => x)

/-- Step (c)'s effect on the fragment: strip the inline digit suffix from
the last paragraph's text (regardless of whether a page number was
already found). -/
def step3_frag (l : List Node) : List Node :=
  match step3_get l with
  | none => l
  | some (loc, newt, _) => setLocText l loc newt

/-- Step (c)'s digit run. -/
def step3_digits (l : List Node) : Option (List Char) :=
  (step3_get l).map (fun x => x.2.2)

/-- Model of the source's `move_page_number_to_footer`.  Returns the
rewritten fragment, the footer's paragraph text (`none` models the empty
footer string), and the page number.  Step (a) removes all page-number
containers and takes the last one's trailing digit run; step (b)
decomposes the trailing all-digit paragraph, contributing its value only
if none was found; step (c) strips a trailing inline digit suffix from
the last remaining paragraph, contributing its value only if none was
found. -/
def move_pn_value (frag : List Node) : Option String :=
  match pn_from_divs frag with
  | some v => some v
  | none =>
    match step2_val (stripPnDivs frag) with
    | some v => some v
    | none => (step3_digits (step2_frag (stripPnDivs frag))).map (fun d => lstrip0 d)

/-- The rewritten fragment, the footer's paragraph text, and the page
number. -/
def move_page_number_to_footer (frag : List Node) :
    List Node × Option String × Option String :=
  match move_pn_value frag with
  | none => (step3_frag (step2_frag (stripPnDivs frag)), none, none)
  | some v =>
    (step3_frag (step2_frag (stripPnDivs frag)), some ("Page Number " ++ pyIntStr v), some v)

/-! ## Text linearizer (`recompute_text_from_html_fragment`) -/

/-- The list marker of `dump_list`: uppercase alphabetic for an ordered
list whose `type` attribute upper-cases to "A", otherwise numeric for
ordered lists, "- " for unordered lists.  (The source's lowercase-alpha
branch compares the already upper-cased attribute with "a" and is
unreachable.) -/
def marker_for (ordered : Bool) (typ : String) (idx : Nat) : String :=
  if ordered then
    if String.mk (typ.data.map Char.toUpper) = "A" then String.mk [Char.ofNat (65 + idx - 1)] ++ ". "
    else toString idx ++ ". "
  else "- "

/-- Lines produced for one nested sub-list (indent 2). -/
def dump_sublist (sl : SubList) : List String :=
  (List.enumFrom sl.start sl.items).filterMap (fun it =>
    let main := clean it.2
    if main ≠ "" then some ("  " ++ marker_for sl.ordered sl.typ it.1 ++ main) else none)

/-- Lines produced for one top-level list: each item contributes its own
line when its text (excluding nested lists) is non-empty, followed by the
lines of its nested sub-lists; the marker index advances for every item. -/
def dump_list (hl : HtmlList) : List String :=
  (List.enumFrom hl.start hl.items).flatMap (fun it =>
    (if clean it.2.txt ≠ "" then [marker_for hl.ordered hl.typ it.1 ++ clean it.2.txt]
     else []) ++ it.2.subs.flatMap dump_sublist)

/-- Lines produced for a table: one line per row whose cleaned cells are
not all empty, cells joined with " | ". -/
def dump_table (rows : List (List Cell)) : List String :=
  rows.filterMap (fun tr =>
    let cells := tr.map (fun c => clean c.txt)
    if cells.any (fun c => c ≠ "") then some (String.intercalate " | " cells) else none)

/-- The line list the source's `recompute_text_from_html_fragment` builds:
paragraphs emit their cleaned text when non-empty, lists and tables
recurse, asides emit only their first paragraph's text, every other node
emits nothing. -/
def recompute_lines : List Node → List String
  | [] => []
  | n :: l =>
    (match n with
     | Node.p t => if clean t ≠ "" then [clean t] else []
     | Node.hlist hl => dump_list hl
     | Node.aside ps =>
       match ps.head? with
       | some t => if clean t ≠ "" then [clean t] else []
       | none => []
     | Node.htable rows => dump_table rows
     | _ => []) ++ recompute_lines l

/-- Model of the source's `recompute_text_from_html_fragment`: the lines
joined with blank-line separators. -/
def recompute_text_from_html_fragment (l : List Node) : String :=
  String.intercalate "\n\n" (recompute_lines l)

/-- The specification's semantic-leaf count: paragraphs, list items
(nested ones included), table rows, and asides (one per aside). -/
def leafCountNode : Node → Nat
  | Node.p _ => 1
  | Node.aside _ => 1
  | Node.hlist hl =>
    hl.items.length + (hl.items.map (fun it => (it.subs.map (fun s => s.items.length)).sum)).sum
  | Node.htable rows => rows.length
  | _ => 0

/-- The semantic-leaf count of a fragment. -/
def semantic_leaf_count (l : List Node) : Nat := (l.map leafCountNode).sum

/-! ## Tokens and geometric detection -/

/-- A positioned text token (`{'y','x','cls','text'}` plus the index
assigned after sorting). -/
structure Token where
  y : Rat
  x : Rat
  cls : Option String
  text : String
  idx : Nat
deriving Repr, DecidableEq

/-- The sort key order of `toks.sort(key=lambda t: (t['y'], t['x']))`:
lexicographic on (y, x). -/
def tokLe (a b : Token) : Prop := a.y < b.y ∨ (a.y = b.y ∧ a.x ≤ b.x)

instance : DecidableRel tokLe := fun a b => by unfold tokLe; infer_instance

instance : IsTotal Token tokLe :=
  ⟨fun a b => by
    unfold tokLe
    rcases lt_trichotomy a.y b.y with h | h | h
    · exact Or.inl (Or.inl h)
    · rcases le_total a.x b.x with hx | hx
      · exact Or.inl (Or.inr ⟨h, hx⟩)
      · exact Or.inr (Or.inr ⟨h.symm, hx⟩)
    · exact Or.inr (Or.inl h)⟩

instance : IsTrans Token tokLe :=
  ⟨fun a b c hab hbc => by
    unfold tokLe at *
    rcases hab with h1 | ⟨e1, x1⟩
    · rcases hbc with h2 | ⟨e2, _⟩
      · exact Or.inl (h1.trans h2)
      · exact Or.inl (e2 ▸ h1)
    · rcases hbc with h2 | ⟨e2, x2⟩
      · exact Or.inl (e1 ▸ h2)
      · exact Or.inr ⟨e1.trans e2, x1.trans x2⟩⟩

/-- The x-only order used to sort a line's items (`sort(key=lambda z: z['x'])`). -/
def xLe (a b : Token) : Prop := a.x ≤ b.x

instance : DecidableRel xLe := fun a b => by unfold xLe; infer_instance

instance : IsTotal Token xLe := ⟨fun a b => le_total a.x b.x⟩

instance : IsTrans Token xLe := ⟨fun _ _ _ h1 h2 => le_trans h1 h2⟩

/-- A `<span>` as `collect_tokens` sees it: optional id, class list, text. -/
structure Span where
  ident : Option String
  classes : List String
  text : String
deriving Repr, DecidableEq

/-- The position table produced by `extract_positions_from_css`, as a keyed
list (keys unique, last CSS rule wins — as in a Python dict). -/
def posLookup (pos : List (String × Rat × Rat)) (k : String) : Option (Rat × Rat) :=
  (pos.find? (fun e => e.1 = k)).map (fun e => e.2)

/-- The first class starting with "styleid" (the token's style class). -/
def span_style_class (s : Span) : Option String :=
  s.classes.find? (fun c => "styleid".data.isPrefixOf c.data)

/-- The position key of a span: its id if that is in the table, else the
first class that is. -/
def span_pos_key (pos : List (String × Rat × Rat)) (s : Span) : Option String :=
  match s.ident with
  | some i =>
    if (posLookup pos i).isSome then some i
    else s.classes.find? (fun c => (posLookup pos c).isSome)
  | none => s.classes.find? (fun c => (posLookup pos c).isSome)

/-- The token list of `collect_tokens` before sorting: spans with empty
stripped text are dropped, the class allow-list (when supplied) filters on
the style class, and a span with no resolvable position key is dropped. -/
def collect_raw (spans : List Span) (pos : List (String × Rat × Rat))
    (allow : Option (List (Option String))) : List Token :=
  spans.filterMap (fun sp =>
    let txt := pystrip sp.text
    if txt = "" then none
    else
      let sc := span_style_class sp
      if (match allow with | some al => decide (sc ∈ al) | none => true) = false then none
      else
        match span_pos_key pos sp with
        | none => none
        | some k =>
          match posLookup pos k with
          | none => none
          | some yx => some (Token.mk yx.1 yx.2 sc txt 0))

/-- The token list after the global stable (y, x) sort. -/
def collect_sorted (spans : List Span) (pos : List (String × Rat × Rat))
    (allow : Option (List (Option String))) : List Token :=
  List.insertionSort tokLe (collect_raw spans pos allow)

/-- Model of the source's `collect_tokens`: sort, then assign each token
its position as `idx`. -/
def collect_tokens (spans : List Span) (pos : List (String × Rat × Rat))
    (allow : Option (List (Option String))) : List Token :=
  (collect_sorted spans pos allow).enum.map (fun e => { e.2 with idx := e.1 })

/-- A line of `group_by_y`: the y of its first token, and its tokens. -/
structure Line where
  y : Rat
  items : List Token
deriving Repr, DecidableEq

/-- The grouping fold of `group_by_y` (before the per-line x sort): a token
within `tol` of the current (last) line's y joins it, otherwise it starts
a new line. -/
def group_by_y_raw (ts : List Token) (tol : Rat) : List Line :=
  ts.foldl (fun lines t =>
    match lines.getLast? with
    | none => [Line.mk t.y [t]]
    | some cur =>
      if |t.y - cur.y| > tol then lines ++ [Line.mk t.y [t]]
      else lines.dropLast ++ [Line.mk cur.y (cur.items ++ [t])]) []

/-- Model of the source's `group_by_y`: group, then stably sort each line's
items by x. -/
def group_by_y (ts : List Token) (tol : Rat) : List Line :=
  (group_by_y_raw ts tol).map (fun ln => Line.mk ln.y (List.insertionSort xLe ln.items))

/-- The horizontal span of `x_span` (callers guard non-emptiness). -/
def x_span (ts : List Token) : Rat :=
  ((ts.map (·.x)).max?.getD 0) - ((ts.map (·.x)).min?.getD 0)

/-- A detected block: kind tag, header texts, rows of cell texts, the
provenance token-index set, and the vertical extent. -/
structure Block where
  kind : String
  header : List String
  rows : List (List String)
  used : Finset Nat
  ymin : Rat
  ymax : Rat
deriving DecidableEq

/-- Whether some grouped line contains a fact-table label-class token. -/
def has_label_line (lines : List Line) : Bool :=
  lines.any (fun ln => ln.items.any (fun t => t.cls = some "styleid3"))

/-- Model of the source's `detect_fact_table` (default classes
`label_cls='styleid3'`, `value_cls='styleid4'`, `y_tol=6`, `min_rows=3`).
The first grouped line that contains a label-class token makes the source
evaluate `median([...])`, and `median` is an undefined name in the module
(never imported, never defined), so that path raises `NameError` —
modelled as `.error ()`.  With no label-class token in any line,
`label_lines` remains empty and the `len(label_lines) < min_rows` guard
returns `None` before any `median` call; the earlier guards (no allowed
tokens, non-positive x span) also return `None` first. -/
def detect_fact_table (tokens : List Token) : Except Unit (Option Block) :=
  let toks := tokens.filter (fun t => t.cls = some "styleid3" ∨ t.cls = some "styleid4")
  if toks.isEmpty then .ok none
  else if x_span toks ≤ 0 then .ok none
  else if has_label_line (group_by_y toks 6) then .error ()
  else .ok none

/-- Join a token run into text: `tidy_text(" ".join(z['text'] for z in keep))`. -/
def tidy_join (ts : List Token) : String :=
  clean (String.intercalate " " (ts.map (·.text)))

/-- Column assignment of a band token: the nearest of the three header
anchors by horizontal distance, first winning on ties (Python `min` over
`range(3)`). -/
def col_index (a0 a1 a2 x : Rat) : Nat :=
  if |x - a0| ≤ |x - a1| ∧ |x - a0| ≤ |x - a2| then 0
  else if |x - a1| ≤ |x - a2| then 1 else 2

/-- The `merge` helper of `detect_comparison_table`: keep only tokens of
the allowed class, stably sorted by (y, x). -/
def merge_col (ts : List Token) (allowedCls : String) : List Token :=
  List.insertionSort tokLe (ts.filter (fun t => t.cls = some allowedCls))

/-- The midpoint helper. -/
def midRat (a b : Rat) : Rat := (a + b) / 2

/-- One row step of `detect_comparison_table`'s band loop, accumulating
(used index set, rows, count of rows with both value columns non-empty).
Tokens kept by `merge` are added to `used` whether or not the row is
appended, exactly as in the source. -/
def comparison_row_step (toks : List Token) (headerY a0 a1 a2 : Rat)
    (labelLines : List Line) (acc : Finset Nat × List (List String) × Nat) (i : Nat) :
    Finset Nat × List (List String) × Nat :=
  let y := ((labelLines[i]?).map (·.y)).getD 0
  let yPrev := if i = 0 then y - 1000000 else ((labelLines[i-1]?).map (·.y)).getD 0
  let yNext := ((labelLines[i+1]?).map (·.y)).getD (y + 1000000)
  let bandLo := midRat yPrev y
  let bandHi := midRat y yNext
  let band := toks.filter (fun t => bandLo ≤ t.y ∧ t.y ≤ bandHi ∧ t.y ≠ headerY)
  let k0 := merge_col (band.filter (fun t => col_index a0 a1 a2 t.x = 0)) "styleid4"
  let k1 := merge_col (band.filter (fun t => col_index a0 a1 a2 t.x = 1)) "styleid5"
  let k2 := merge_col (band.filter (fun t => col_index a0 a1 a2 t.x = 2)) "styleid5"
  let label := tidy_join k0
  let v1 := tidy_join k1
  let v2 := tidy_join k2
  let used2 := acc.1 ∪ (k0.map (·.idx)).toFinset ∪ (k1.map (·.idx)).toFinset
      ∪ (k2.map (·.idx)).toFinset
  if label ≠ "" ∨ v1 ≠ "" ∨ v2 ≠ "" then
    (used2, acc.2.1 ++ [[label, v1, v2]], acc.2.2 + (if v1 ≠ "" ∧ v2 ≠ "" then 1 else 0))
  else (used2, acc.2.1, acc.2.2)

/-- The y of a token selected positionally by index (`tokens[i]['y']`;
callers only use indices of well-indexed token lists). -/
def tokY (tokens : List Token) (i : Nat) : Rat := ((tokens[i]?).map (·.y)).getD 0

/-- Model of the source's `detect_comparison_table` (default classes
`header_cls='styleid4'`, `label_cls='styleid4'`, `value_cls='styleid5'`,
`y_tol=8`, `min_rows=3`).  The header is the first grouped
header-class line with at least 3 tokens; its first three x-sorted tokens
are the anchors; the anchor gaps must each reach 10% of the span; label
lines below the header partition the vertical axis into bands; a
candidate needs at least 3 rows and both value columns non-empty in at
least 60% of rows. -/
def detect_comparison_table (tokens : List Token) : Option Block :=
  let toks := tokens.filter (fun t => t.cls = some "styleid4" ∨ t.cls = some "styleid5")
  if toks.isEmpty then none
  else
    let span := x_span toks
    if span ≤ 0 then none
    else
      let hdrLines := (group_by_y (List.insertionSort tokLe
          (toks.filter (fun t => t.cls = some "styleid4"))) 8).filter
          (fun ln => 3 ≤ ln.items.length)
      match hdrLines.head? with
      | none => none
      | some headerLine =>
        match (List.insertionSort xLe headerLine.items).take 3 with
        | [c0, c1, c2] =>
          let a0 := c0.x
          let a1 := c1.x
          let a2 := c2.x
          if min (a1 - a0) (a2 - a1) < span / 10 then none
          else
            let labToks := toks.filter
                (fun t => t.cls = some "styleid4" ∧ headerLine.y < t.y)
            let labelLines := group_by_y labToks 8
            if labelLines.length < 3 then none
            else
              let used0 : Finset Nat := {c0.idx, c1.idx, c2.idx}
              let r := (List.range labelLines.length).foldl
                  (comparison_row_step toks headerLine.y a0 a1 a2 labelLines)
                  (used0, [], 0)
              if r.2.1.length < 3 ∨ 5 * r.2.2 < 3 * r.2.1.length then none
              else
                some (Block.mk "comparison_3col"
                  [clean c0.text, clean c1.text, clean c2.text] r.2.1 r.1
                  ((((r.1.sort (fun a b => a ≤ b)).map (tokY tokens)).min?).getD 0)
                  ((((r.1.sort (fun a b => a ≤ b)).map (tokY tokens)).max?).getD 0))
        | _ => none

/-- The descending-size order of `blocks.sort(key=lambda b:
len(b['used_idx']), reverse=True)` (stable on ties). -/
def blockGe (a b : Block) : Prop := b.used.card ≤ a.used.card

instance : DecidableRel blockGe := fun a b => by unfold blockGe; infer_instance

instance : IsTotal Block blockGe := ⟨fun a b => le_total b.used.card a.used.card⟩

instance : IsTrans Block blockGe := ⟨fun _ _ _ h1 h2 => le_trans h2 h1⟩

/-- The claimed fraction `len(b['used_idx'] & used_all) / max(1,
len(b['used_idx']))`. -/
def overlap_frac (used claimed : Finset Nat) : Rat :=
  ((used ∩ claimed).card : Rat) / ((max 1 used.card : Nat) : Rat)

/-- Model of the source's `resolve_overlaps`: sort by descending used-set
size, then greedily accept a block exactly when the fraction of its
indices already claimed is strictly below 0.3, accumulating accepted
blocks' indices into the claimed set. -/
def resolve_overlaps (blocks : List Block) : List Block :=
  ((List.insertionSort blockGe blocks).foldl
    (fun acc b =>
      if overlap_frac b.used acc.2 < 3 / 10 then (acc.1 ++ [b], acc.2 ∪ b.used)
      else acc)
    (([] : List Block), (∅ : Finset Nat))).1

/-- Model of `NUM_LABEL_RE` (`^\s*(\d{1,3})\s*(?:[.)])?\s*$`) returning the
integer value of a bare 1-3 digit label optionally followed by "." or
")". -/
def num_label (s : String) : Option Nat :=
  let l := s.data.dropWhile Char.isWhitespace
  let ds := l.takeWhile Char.isDigit
  if ds.length = 0 ∨ 3 < ds.length then none
  else
    let r2 := (l.drop ds.length).dropWhile Char.isWhitespace
    let r3 := match r2 with
      | c :: r => if c = '.' ∨ c = ')' then r else r2
      | [] => []
    if (r3.dropWhile Char.isWhitespace).isEmpty then some (natOfDigits ds) else none

/-- The common tail of the two numbered-list collapses: at least 3
collected rows, and a contiguous ascending integer sequence seeded at the
first row's label; the result is that start and the row values. -/
def rows_to_ol : List (Nat × String) → Option (Nat × List String)
  | [] => none
  | h :: tl =>
    if (h :: tl).length < 3 then none
    else if (List.enumFrom 0 (h :: tl)).all (fun e => e.2.1 = h.1 + e.1) then
      some (h.1, (h :: tl).map (fun r => r.2))
    else none

/-- The row loop of `maybe_fact_to_ol`: a row with an empty tidied value or
a non-numeric label aborts the whole conversion (`return None`). -/
def collect_fact_pairs : List (String × String) → Option (List (Nat × String))
  | [] => some []
  | r :: rest =>
    if clean r.2 = "" then none
    else
      match num_label r.1 with
      | none => none
      | some n => (collect_fact_pairs rest).map (fun ps => (n, clean r.2) :: ps)

/-- The row test of `maybe_fact_to_ol`: every row must have a non-empty
tidied value and a numeric label, else the whole conversion aborts. -/
def maybe_fact_rows_to_ol (rows : List (String × String)) : Option (Nat × List String) :=
  match collect_fact_pairs rows with
  | none => none
  | some pairs => rows_to_ol pairs

/-- Rows of a fact block as (label, value) pairs (fact blocks always carry
two cells per row). -/
def pair_rows : List (List String) → Option (List (String × String))
  | [] => some []
  | r :: rest =>
    match r with
    | [a, b] => (pair_rows rest).map (fun ps => (a, b) :: ps)
    | _ => none

/-- Model of `render_page_with_tables`'s inner `maybe_fact_to_ol`: only a
`fact_2col` block is considered; the result is the ordered list's start
and items. -/
def maybe_fact_to_ol (b : Block) : Option (Nat × List String) :=
  if b.kind = "fact_2col" then
    match pair_rows b.rows with
    | some rows => maybe_fact_rows_to_ol rows
    | none => none
  else none

/-- The block list of `render_page_with_tables` after overlap resolution:
each detector runs under `try/except` (a raised `NameError` contributes
no block), `None` results are dropped by `resolve_overlaps`. -/
def render_blocks (tokens : List Token) : List Block :=
  resolve_overlaps
    ((match detect_comparison_table tokens with | some b => [b] | none => []) ++
     (match detect_fact_table tokens with | .ok (some b) => [b] | _ => []))

/-- The blocks after the numbered-fact-to-ordered-list rewrite pass. -/
def final_blocks (tokens : List Token) : List Block :=
  (render_blocks tokens).map (fun b =>
    match maybe_fact_to_ol b with
    | some _ => { b with kind := "ol_from_fact" }
    | none => b)

/-- The union of the accepted blocks' used-index sets. -/
def blocks_used (bs : List Block) : Finset Nat :=
  bs.foldl (fun acc b => acc ∪ b.used) ∅

/-- The tokens rendered as plain paragraph lines: those not claimed by any
accepted block. -/
def non_table_tokens (tokens : List Token) : List Token :=
  tokens.filter (fun t => t.idx ∉ blocks_used (final_blocks tokens))

/-- The plain-paragraph items of `render_page_with_tables`: the unclaimed
tokens grouped into 8-unit lines, each non-empty line becoming one
paragraph positioned at the line's y. -/
def render_paragraph_items (tokens : List Token) : List (Rat × String) :=
  (group_by_y (non_table_tokens tokens) 8).filterMap (fun ln =>
    let text := tidy_join ln.items
    if text ≠ "" then some (ln.y, text) else none)

/-- Boolean well-indexedness: each token's `idx` is its position — true of
every `collect_tokens` result, which is how `render_page_with_tables`
obtains its token list. -/
def well_indexed (tokens : List Token) : Bool :=
  tokens.enum.all (fun e => e.2.idx = e.1)

/-! ## DOM-table to ordered list (`_table_to_ol_if_numbered`) -/

/-! ## Folder processing (`_collect_files`, `process_folder`) -/

/-- Case-insensitive path order of `sorted(files, key=lambda p:
str(p).lower())`. -/
def strLe (a b : String) : Prop :=
  (a.data.map Char.toLower) ≤ (b.data.map Char.toLower)

instance : DecidableRel strLe := fun a b => by unfold strLe; infer_instance

instance : IsTotal String strLe :=
  ⟨fun a b => le_total (a.data.map Char.toLower) (b.data.map Char.toLower)⟩

instance : IsTrans String strLe := ⟨fun _ _ _ h1 h2 => le_trans h1 h2⟩

/-- Whether a path is discovered by `rglob("*.xhtml")` or
`rglob("*.html")` (the pattern constrains the final name component and an
extension contains no path separator, so it is a suffix test). -/
def is_match_file (p : String) : Bool :=
  ".xhtml".data.isSuffixOf p.data || ".html".data.isSuffixOf p.data

/-- Model of the source's `_collect_files`: the `.xhtml` matches, then the
`.html` matches, stably sorted by lower-cased path. -/
def collect_files (files : List String) : List String :=
  List.insertionSort strLe
    (files.filter (fun p => ".xhtml".data.isSuffixOf p.data) ++
     files.filter (fun p => ".html".data.isSuffixOf p.data))

/-- The final path component (`fp.name`). -/
def file_name (p : String) : String :=
  String.mk ((p.data.reverse.takeWhile (fun c => ¬ c = '/')).reverse)

/-- One progress-callback invocation of `process_folder`. -/
structure ProgressEvent where
  current : Nat
  total : Nat
  stage : String
  filename : String
deriving Repr, DecidableEq

/-- The progress-callback invocations of `process_folder`, in order: for
the (0-based) `i`-th collected file, `(i, total, "Starting", name)` before
processing and `(i+1, total, "Processed", name)` after. -/
def process_folder_events (files : List String) : List ProgressEvent :=
  let fs := collect_files files
  (List.enum fs).flatMap (fun e =>
    [ProgressEvent.mk e.1 fs.length "Starting" (file_name e.2),
     ProgressEvent.mk (e.1 + 1) fs.length "Processed" (file_name e.2)])

/-- The report artifact of `process_folder`: `None` when no files matched,
else the report path (modelling the successful spreadsheet write). -/
def process_folder_artifact (files : List String) : Option String :=
  if (collect_files files).isEmpty then none else some "reading_report.xlsx"

/-! ## Specification-side predicates used by the claim statements -/

/-- Whether a node is an aside. -/
def Node.isAside : Node → Bool
  | .aside _ => true
  | _ => false

/-- The contribution of a node to the uppercase-first-word census: a
paragraph whose first word contains an uppercase character contributes
its first word. -/
def upper_entry : Node → Option (List Char)
  | Node.p t => if first_word_has_uppercase t then some (first_word_chars t) else none
  | _ => none

/-- The first words (with an uppercase character) of the paragraphs of a
node list, in document order.  The cross-paragraph merge never absorbs
such a paragraph, so this census is invariant under it. -/
def upper_first_words (l : List Node) : List (List Char) := l.filterMap upper_entry

/-- The (y, x) sort key of a token. -/
def tokKey (t : Token) : Rat × Rat := (t.y, t.x)

/-- The specification's description of the overlap resolver, as a
relation: walking the size-sorted block list, a block is accepted exactly
when the fraction of its token indices already claimed is strictly below
0.3 (then its indices are added to the claimed set), and is otherwise
discarded entirely. -/
inductive GreedySel : Finset Nat → List Block → List Block → Prop where
  | nil : ∀ claimed, GreedySel claimed [] []
  | accept : ∀ claimed b l r, overlap_frac b.used claimed < 3 / 10 →
      GreedySel (claimed ∪ b.used) l r → GreedySel claimed (b :: l) (b :: r)
  | reject : ∀ claimed b l r, ¬ overlap_frac b.used claimed < 3 / 10 →
      GreedySel claimed l r → GreedySel claimed (b :: l) r

/-- Whether `_table_to_ol_if_numbered` skips a row (`continue`): no cells,
a `<th>` cell, fewer than two cells, or an empty joined value. -/
def row_skipped (tr : List Cell) : Bool :=
  tr.isEmpty || tr.any (·.th) || tr.length < 2 ||
    clean (String.intercalate " " (tr.tail.map (fun c => clean c.txt))) = ""

/-- The tidied label of a row (the first cell's text). -/
def row_left (tr : List Cell) : String := clean ((tr.head?.map (·.txt)).getD "")

/-- The tidied joined value of a row (the remaining cells). -/
def row_right (tr : List Cell) : String :=
  clean (String.intercalate " " (tr.tail.map (fun c => clean c.txt)))

/-- The row-collection loop of `_table_to_ol_if_numbered`: rows with no
cells, rows containing a `<th>`, rows with fewer than two cells, and rows
whose joined value text is empty are skipped (`continue`); a remaining
row whose first cell is not a bare numeric label aborts the whole
conversion (`return None`). -/
def table_rows_collect : List (List Cell) → Option (List (Nat × String))
  | [] => some []
  | tr :: rest =>
    if row_skipped tr then table_rows_collect rest
    else
      match num_label (row_left tr) with
      | none => none
      | some n => (table_rows_collect rest).map (fun rs => (n, row_right tr) :: rs)

/-- Model of the source's `_table_to_ol_if_numbered`: collect qualifying
rows, then require at least 3 of them and a contiguous ascending label
sequence seeded at the first label. -/
def table_to_ol_if_numbered (trs : List (List Cell)) : Option (Nat × List String) :=
  match table_rows_collect trs with
  | none => none
  | some rows => rows_to_ol rows

/-- A non-blank text (its cleaned form is non-empty). -/
def nonblank (s : String) : Bool := clean s ≠ ""

/-- The well-formedness condition of the round-trip claim, per node: every
paragraph is non-blank, every aside has a non-blank first paragraph,
every list item and sub-item is non-blank, every table row has some
non-blank cell. -/
def node_lines_match : Node → Bool
  | Node.p t => nonblank t
  | Node.aside ps => match ps.head? with | some t => nonblank t | none => false
  | Node.hlist hl =>
    hl.items.all (fun it => nonblank it.txt && it.subs.all (fun sl => sl.items.all nonblank))
  | Node.htable rows =>
    rows.all (fun tr => (tr.map (fun c => clean c.txt)).any (fun c => c ≠ ""))
  | _ => true

/-! ## Proofs -/

/-! ### C3: the numbered-table collapse -/

theorem rows_to_ol_spec (rows : List (Nat × String)) (n : Nat) (items : List String)
    (h : rows_to_ol rows = some (n, items)) :
    3 ≤ rows.length ∧ (∀ i (hi : i < rows.length), (rows.get ⟨i, hi⟩).1 = n + i) ∧
      items = rows.map (fun r => r.2) := by
  cases rows with
  | nil => exact absurd h (by simp [rows_to_ol])
  | cons hd tl =>
    rw [show rows_to_ol (hd :: tl) =
        (if (hd :: tl).length < 3 then none
         else if (List.enumFrom 0 (hd :: tl)).all (fun e => e.2.1 = hd.1 + e.1) then
           some (hd.1, (hd :: tl).map (fun r => r.2))
         else none) from rfl] at h
    rcases Nat.lt_or_ge (hd :: tl).length 3 with hl | hl
    · rw [if_pos hl] at h; exact absurd h (by simp)
    · rw [if_neg (Nat.not_lt.mpr hl)] at h
      by_cases hall :
          ((List.enumFrom 0 (hd :: tl)).all (fun e => decide (e.2.1 = hd.1 + e.1)) = true)
      · rw [if_pos hall] at h
        simp only [Option.some.injEq, Prod.mk.injEq] at h
        obtain ⟨hn, hitems⟩ := h
        refine ⟨hl, ?_, hitems.symm⟩
        intro i hi
        have hmem : ((0 + i : Nat), (hd :: tl).get ⟨i, hi⟩) ∈ List.enumFrom 0 (hd :: tl) := by
          rw [List.mk_add_mem_enumFrom_iff_getElem?]
          simp [List.getElem?_eq_getElem hi, List.get_eq_getElem]
        have hcond := List.all_eq_true.mp hall _ hmem
        simp only [decide_eq_true_eq] at hcond
        omega
      · rw [if_neg hall] at h; exact absurd h (by simp)

theorem collect_fact_pairs_spec :
    ∀ (rows : List (String × String)) (pairs : List (Nat × String)),
      collect_fact_pairs rows = some pairs →
      (∀ r ∈ rows, clean r.2 ≠ "" ∧ num_label r.1 ≠ none) ∧
      pairs = rows.map (fun r => ((num_label r.1).getD 0, clean r.2)) := by
  intro rows
  induction rows with
  | nil => intro pairs h; simp [collect_fact_pairs] at h; simp [← h]
  | cons r rest ih =>
    intro pairs h
    unfold collect_fact_pairs at h
    by_cases hval : clean r.2 = ""
    · rw [if_pos hval] at h; exact absurd h (by simp)
    · rw [if_neg hval] at h
      cases hn : num_label r.1 with
      | none => rw [hn] at h; exact absurd h (by simp)
      | some n =>
        rw [hn] at h
        cases hrest : collect_fact_pairs rest with
        | none => rw [hrest] at h; exact absurd h (by simp)
        | some ps =>
          rw [hrest] at h
          simp at h
          obtain ⟨h1, h2⟩ := ih ps hrest
          refine ⟨?_, ?_⟩
          · intro r2 hr2
            rcases List.mem_cons.mp hr2 with rfl | hmem
            · exact ⟨hval, by simp [hn]⟩
            · exact h1 r2 hmem
          · rw [← h, h2]; simp [hn]

theorem collect_fact_pairs_none (rows : List (String × String)) (r : String × String)
    (hr : r ∈ rows) (hbad : clean r.2 = "" ∨ num_label r.1 = none) :
    collect_fact_pairs rows = none := by
  induction rows with
  | nil => simp at hr
  | cons r0 rest ih =>
    rcases List.mem_cons.mp hr with rfl | hmem
    · unfold collect_fact_pairs
      by_cases hv : clean r.2 = ""
      · simp [hv]
      · rcases hbad with hb | hn
        · exact absurd hb hv
        · simp [hv, hn]
    · unfold collect_fact_pairs
      by_cases hv : clean r0.2 = ""
      · simp [hv]
      · cases hn : num_label r0.1 with
        | none => simp [hv]
        | some n => simp [hv, ih hmem]

theorem table_rows_collect_spec :
    ∀ (trs : List (List Cell)) (rows : List (Nat × String)),
      table_rows_collect trs = some rows →
      (∀ tr ∈ trs, row_skipped tr = false → num_label (row_left tr) ≠ none) ∧
      rows = (trs.filter (fun tr => ¬ row_skipped tr)).map
        (fun tr => ((num_label (row_left tr)).getD 0, row_right tr)) := by
  intro trs
  induction trs with
  | nil => intro rows h; simp [table_rows_collect] at h; simp [← h]
  | cons tr rest ih =>
    intro rows h
    unfold table_rows_collect at h
    by_cases hs : row_skipped tr
    · rw [if_pos hs] at h
      obtain ⟨h1, h2⟩ := ih rows h
      refine ⟨?_, ?_⟩
      · intro tr2 htr2 hsk
        rcases List.mem_cons.mp htr2 with rfl | hmem
        · exact absurd hs (by simp [hsk])
        · exact h1 tr2 hmem hsk
      · simpa [List.filter_cons, hs] using h2
    · rw [if_neg hs] at h
      cases hn : num_label (row_left tr) with
      | none => rw [hn] at h; exact absurd h (by simp)
      | some n =>
        rw [hn] at h
        cases hrest : table_rows_collect rest with
        | none => rw [hrest] at h; exact absurd h (by simp)
        | some rs =>
          rw [hrest] at h
          simp at h
          obtain ⟨h1, h2⟩ := ih rs hrest
          refine ⟨?_, ?_⟩
          · intro tr2 htr2 hsk
            rcases List.mem_cons.mp htr2 with rfl | hmem
            · simp [hn]
            · exact h1 tr2 hmem hsk
          · rw [← h, h2]
            simp [List.filter_cons, hs, hn]

theorem table_rows_collect_none (trs : List (List Cell)) (tr : List Cell)
    (htr : tr ∈ trs) (hsk : row_skipped tr = false)
    (hn : num_label (row_left tr) = none) : table_rows_collect trs = none := by
  induction trs with
  | nil => simp at htr
  | cons tr0 rest ih =>
    rcases List.mem_cons.mp htr with rfl | hmem
    · unfold table_rows_collect
      rw [if_neg (by simp [hsk]), hn]
    · unfold table_rows_collect
      by_cases hs0 : row_skipped tr0
      · simpa [hs0] using ih hmem
      · rw [if_neg hs0]
        cases hn0 : num_label (row_left tr0) with
        | none => rfl
        | some n0 => rw [ih hmem]; rfl

/-- C3 (amended): the collapse is all-or-nothing on each path's qualifying
rows.  On the geometric path (`maybe_fact_to_ol`'s row test) every row of
the detected fact table must have a non-empty tidied value and a bare
integer label, the labels must be contiguous ascending from the first
label (which seeds the list), and the items are the row values — a single
bad row yields `None` (table form).  On the literal DOM path
(`_table_to_ol_if_numbered`) rows with a `<th>`, fewer than two cells or
an empty value are skipped rather than disqualifying; among the remaining
rows the same all-or-nothing test applies. -/
theorem c3_numbered_collapse_all_or_nothing :
    (∀ rows n items, maybe_fact_rows_to_ol rows = some (n, items) →
        3 ≤ rows.length ∧
        (∀ r ∈ rows, clean r.2 ≠ "" ∧ num_label r.1 ≠ none) ∧
        (∀ i (hi : i < rows.length), num_label (rows.get ⟨i, hi⟩).1 = some (n + i)) ∧
        items = rows.map (fun r => clean r.2)) ∧
    (∀ rows r, r ∈ rows → clean r.2 = "" ∨ num_label r.1 = none →
        maybe_fact_rows_to_ol rows = none) ∧
    (∀ trs n items, table_to_ol_if_numbered trs = some (n, items) →
        (∀ tr ∈ trs, row_skipped tr = false → num_label (row_left tr) ≠ none) ∧
        3 ≤ (trs.filter (fun tr => ¬ row_skipped tr)).length ∧
        (∀ i (hi : i < (trs.filter (fun tr => ¬ row_skipped tr)).length),
          num_label (row_left ((trs.filter (fun tr => ¬ row_skipped tr)).get ⟨i, hi⟩)) =
            some (n + i)) ∧
        items = (trs.filter (fun tr => ¬ row_skipped tr)).map row_right) ∧
    (∀ trs tr, tr ∈ trs → row_skipped tr = false → num_label (row_left tr) = none →
        table_to_ol_if_numbered trs = none) := by
  refine ⟨?_, ?_, ?_, ?_⟩
  · intro rows n items h
    unfold maybe_fact_rows_to_ol at h
    cases hc : collect_fact_pairs rows with
    | none => rw [hc] at h; exact absurd h (by simp)
    | some pairs =>
      rw [hc] at h
      obtain ⟨hall, hpairs⟩ := collect_fact_pairs_spec rows pairs hc
      obtain ⟨hlen3, hcontig, hitems⟩ := rows_to_ol_spec pairs n items h
      have hlen : pairs.length = rows.length := by rw [hpairs]; simp
      refine ⟨by omega, hall, ?_, ?_⟩
      · intro i hi
        have hip : i < pairs.length := by omega
        have hgq : pairs[i]? =
            some ((num_label (rows.get ⟨i, hi⟩).1).getD 0, clean (rows.get ⟨i, hi⟩).2) := by
          rw [hpairs, List.getElem?_map, List.getElem?_eq_getElem hi]
          simp [List.get_eq_getElem]
        rw [List.getElem?_eq_getElem hip] at hgq
        have hget : pairs.get ⟨i, hip⟩ =
            ((num_label (rows.get ⟨i, hi⟩).1).getD 0, clean (rows.get ⟨i, hi⟩).2) := by
          rw [List.get_eq_getElem]
          exact Option.some.inj hgq
        have h1 := hcontig i hip
        rw [hget] at h1
        have hne := (hall _ (List.get_mem rows i hi)).2
        cases hnl : num_label (rows.get ⟨i, hi⟩).1 with
        | none => exact absurd hnl hne
        | some k => rw [hnl] at h1; simp at h1; simp [h1]
      · rw [hitems, hpairs]; simp
  · intro rows r hr hbad
    unfold maybe_fact_rows_to_ol
    rw [collect_fact_pairs_none rows r hr hbad]
  · intro trs n items h
    unfold table_to_ol_if_numbered at h
    cases hc : table_rows_collect trs with
    | none => rw [hc] at h; exact absurd h (by simp)
    | some rows =>
      rw [hc] at h
      obtain ⟨hall, hrows⟩ := table_rows_collect_spec trs rows hc
      obtain ⟨hlen3, hcontig, hitems⟩ := rows_to_ol_spec rows n items h
      have hlen : rows.length = (trs.filter (fun tr => ¬ row_skipped tr)).length := by
        rw [hrows]; simp
      refine ⟨hall, by omega, ?_, ?_⟩
      · intro i hi
        have hip : i < rows.length := by omega
        have hgq : rows[i]? =
            some ((num_label (row_left ((trs.filter (fun tr => ¬ row_skipped tr)).get ⟨i, hi⟩))).getD 0,
             row_right ((trs.filter (fun tr => ¬ row_skipped tr)).get ⟨i, hi⟩)) := by
          rw [hrows, List.getElem?_map, List.getElem?_eq_getElem hi]
          simp [List.get_eq_getElem]
        rw [List.getElem?_eq_getElem hip] at hgq
        have hget : rows.get ⟨i, hip⟩ =
            ((num_label (row_left ((trs.filter (fun tr => ¬ row_skipped tr)).get ⟨i, hi⟩))).getD 0,
             row_right ((trs.filter (fun tr => ¬ row_skipped tr)).get ⟨i, hi⟩)) := by
          rw [List.get_eq_getElem]
          exact Option.some.inj hgq
        have h1 := hcontig i hip
        rw [hget] at h1
        have hmem : (trs.filter (fun tr => ¬ row_skipped tr)).get ⟨i, hi⟩ ∈ trs := by
          have := List.get_mem (trs.filter (fun tr => ¬ row_skipped tr)) i hi
          exact List.mem_of_mem_filter this
        have hkept : row_skipped ((trs.filter (fun tr => ¬ row_skipped tr)).get ⟨i, hi⟩) = false := by
          have := List.get_mem (trs.filter (fun tr => ¬ row_skipped tr)) i hi
          have := List.of_mem_filter this
          simpa using this
        have hne := hall _ hmem hkept
        cases hnl : num_label (row_left ((trs.filter (fun tr => ¬ row_skipped tr)).get ⟨i, hi⟩)) with
        | none => exact absurd hnl hne
        | some k => rw [hnl] at h1; simp at h1; simp [h1]
      · rw [hitems, hrows]; simp [row_right]
  · intro trs tr htr hsk hn
    unfold table_to_ol_if_numbered
    rw [table_rows_collect_none trs tr htr hsk hn]

/-- C3 witness: a qualifying geometric fact table does collapse, and the
theorem's conclusions hold of it. -/
theorem c3_witness :
    maybe_fact_rows_to_ol [("1.", "a"), ("2)", "b"), ("3", "c")] = some (1, ["a", "b", "c"]) ∧
      (∀ r ∈ [(("1." : String), ("a" : String)), ("2)", "b"), ("3", "c")],
        clean r.2 ≠ "" ∧ num_label r.1 ≠ none) ∧
      table_to_ol_if_numbered [[Cell.mk false "2", Cell.mk false "x"],
        [Cell.mk false "3", Cell.mk false "y"], [Cell.mk false "4", Cell.mk false "z"]] =
        some (2, ["x", "y", "z"]) := by
  refine ⟨by decide, ?_, by decide⟩
  exact (c3_numbered_collapse_all_or_nothing.1 [("1.", "a"), ("2)", "b"), ("3", "c")]
    1 ["a", "b", "c"] (by decide)).2.1

/-- C3 counterexample: a literal DOM table whose second row has a
non-numeric label ("x") and an empty value still collapses to an ordered
list, because `_table_to_ol_if_numbered` skips empty-value rows before
the label test.  The claim requires such a table to stay in table form. -/
theorem c3_counterexample :
    table_to_ol_if_numbered
        [[Cell.mk false "1", Cell.mk false "a"],
         [Cell.mk false "x", Cell.mk false " "],
         [Cell.mk false "2", Cell.mk false "b"],
         [Cell.mk false "3", Cell.mk false "c"]] = some (1, ["a", "b", "c"]) ∧
      num_label "x" = none ∧ row_right [Cell.mk false "x", Cell.mk false " "] = "" := by
  exact ⟨by decide, by decide, by decide⟩

/-! ### C8: leading-zero normalization of the page number -/

theorem dropWhile_head_not {α : Type} {p : α → Bool} :
    ∀ (l : List α) (a : α) (s : List α), l.dropWhile p = a :: s → p a = false := by
  intro l
  induction l with
  | nil => intro a s h; simp [List.dropWhile] at h
  | cons c cs ih =>
    intro a s h
    rw [List.dropWhile_cons] at h
    by_cases hc : p c
    · rw [if_pos hc] at h; exact ih a s h
    · rw [if_neg hc] at h
      cases h
      simpa using hc

theorem takeWhile_all {α : Type} (p : α → Bool) (l : List α) :
    (l.takeWhile p).all p = true := by
  induction l with
  | nil => simp
  | cons a t ih =>
    rw [List.takeWhile_cons]
    by_cases ha : p a
    · simp [ha, ih]
    · simp [ha]

theorem digitRunsAux_mem :
    ∀ (cs : List Char) (acc : List Char), acc.all Char.isDigit = true →
      ∀ r ∈ digitRunsAux cs acc, r ≠ [] ∧ r.all Char.isDigit = true := by
  intro cs
  induction cs with
  | nil =>
    intro acc hacc r hr
    unfold digitRunsAux at hr
    by_cases he : acc.isEmpty
    · rw [if_pos he] at hr; simp at hr
    · rw [if_neg he] at hr
      simp only [List.mem_singleton] at hr
      subst hr
      refine ⟨?_, by simpa using hacc⟩
      intro hcon
      exact he (by simp [List.isEmpty_iff, ← List.reverse_eq_nil_iff, hcon])
  | cons c cs ih =>
    intro acc hacc r hr
    unfold digitRunsAux at hr
    by_cases hd : c.isDigit
    · rw [if_pos hd] at hr
      exact ih (c :: acc) (by simp [hd, hacc]) r hr
    · rw [if_neg hd] at hr
      by_cases he : acc.isEmpty
      · rw [if_pos he] at hr
        exact ih [] (by simp) r hr
      · rw [if_neg he] at hr
        rcases List.mem_cons.mp hr with rfl | hmem
        · refine ⟨?_, by simpa using hacc⟩
          intro hcon
          exact he (by simp [List.isEmpty_iff, ← List.reverse_eq_nil_iff, hcon])
        · exact ih [] (by simp) r hmem

theorem digitRuns_mem (cs : List Char) (r : List Char) (hr : r ∈ digitRuns cs) :
    r ≠ [] ∧ r.all Char.isDigit = true :=
  digitRunsAux_mem cs [] (by simp) r hr

theorem lstrip0_spec (d : List Char) (_hne : d ≠ []) (hdig : d.all Char.isDigit = true) :
    isDigits (lstrip0 d) = true ∧ (lstrip0 d = "0" ∨ (lstrip0 d).data.head? ≠ some '0') := by
  unfold lstrip0
  cases hs : d.dropWhile (fun c => c = '0') with
  | nil => exact ⟨by decide, Or.inl (by simp)⟩
  | cons a s =>
    have hsub : ∀ c ∈ a :: s, c.isDigit = true := by
      intro c hc
      have hc2 : c ∈ d.dropWhile (fun c => c = '0') := by rw [hs]; exact hc
      have hmem : c ∈ d := List.Sublist.mem hc2 (List.dropWhile_sublist _)
      exact List.all_eq_true.mp hdig c hmem
    have hha : ¬ (a = '0') := by
      simpa using dropWhile_head_not d a s hs
    have hif : (if (a :: s).isEmpty = true then ("0" : String) else String.mk (a :: s)) =
        String.mk (a :: s) := by simp
    rw [hif]
    refine ⟨?_, Or.inr ?_⟩
    · simp only [isDigits, Bool.and_eq_true, decide_eq_true_eq]
      constructor
      · intro hcon
        have : (String.mk (a :: s)).data = ("" : String).data := by rw [hcon]
        simp at this
      · simpa using hsub
    · intro hcon
      simp only [List.head?_cons, Option.some.injEq] at hcon
      exact hha hcon

theorem step3_split_digits (raw : String) (newt : String) (ds : List Char)
    (h : step3_split raw = some (newt, ds)) : ds ≠ [] ∧ ds.all Char.isDigit = true := by
  simp only [step3_split] at h
  split at h
  · exact absurd h (by simp)
  · rename_i hlen
    push_neg at hlen
    split at h
    · exact absurd h (by simp)
    · split at h
      · simp only [Option.some.injEq, Prod.mk.injEq] at h
        obtain ⟨-, hds⟩ := h
        subst hds
        constructor
        · intro hcon
          have hlen0 := congrArg List.length hcon
          simp only [List.length_reverse, List.length_nil] at hlen0
          omega
        · rw [List.all_reverse]
          exact takeWhile_all _ _
      · exact absurd h (by simp)

theorem step2_head_cand_sound (n : Node) (rest : List Node) (loc : PLoc)
    (h : step2_head_cand n rest = some loc) :
    ∃ t, locText (n :: rest) loc = some t ∧ isDigits (pystrip t) = true := by
  cases n with
  | p t =>
    by_cases hc : (isDigits (pystrip t) && rest.all skip_for_trailing) = true
    · rw [step2_head_cand, if_pos hc] at h
      simp only [Option.some.injEq] at h
      subst h
      have hc2 := hc
      simp only [Bool.and_eq_true] at hc2
      exact ⟨t, by simp [locText], hc2.1⟩
    · rw [step2_head_cand, if_neg hc] at h
      exact absurd h (by simp)
  | aside ps =>
    cases hl : ps.getLast? with
    | none =>
      rw [step2_head_cand] at h
      simp only [hl] at h
      exact absurd h (by simp)
    | some t =>
      rw [step2_head_cand] at h
      simp only [hl] at h
      by_cases hc : isDigits (pystrip t) = true
      · rw [if_pos hc] at h
        simp only [Option.some.injEq] at h
        subst h
        exact ⟨t, by simp [locText, hl], hc⟩
      · rw [if_neg hc] at h; exact absurd h (by simp)
  | pnDiv t => exact absurd h (by simp [step2_head_cand])
  | hlist hl => exact absurd h (by simp [step2_head_cand])
  | htable rows => exact absurd h (by simp [step2_head_cand])
  | media => exact absurd h (by simp [step2_head_cand])
  | otherTag => exact absurd h (by simp [step2_head_cand])
  | textNode t => exact absurd h (by simp [step2_head_cand])
  | comment t => exact absurd h (by simp [step2_head_cand])

theorem locText_cons_shift (n : Node) (rest : List Node) (loc : PLoc) :
    locText (n :: rest) (locShift loc) = locText rest loc := by
  cases loc with
  | top k => simp [locText, locShift]
  | innerLast k => simp [locText, locShift]

theorem step2_find_sound :
    ∀ (l : List Node) (loc : PLoc), step2_find l = some loc →
      ∃ t, locText l loc = some t ∧ isDigits (pystrip t) = true := by
  intro l
  induction l with
  | nil => intro loc h; simp [step2_find] at h
  | cons n rest ih =>
    intro loc h
    rw [step2_find] at h
    cases hrest : step2_find rest with
    | some loc0 =>
      rw [hrest] at h
      simp only [Option.some.injEq] at h
      subst h
      obtain ⟨t, ht, hd⟩ := ih _ hrest
      refine ⟨t, ?_, hd⟩
      rw [locText_cons_shift]
      exact ht
    | none =>
      rw [hrest] at h
      exact step2_head_cand_sound n rest loc h

theorem isDigits_pystrip_chars (t : String) (h : isDigits (pystrip t) = true) :
    trimL t.data ≠ [] ∧ (trimL t.data).all Char.isDigit = true := by
  simp only [isDigits, Bool.and_eq_true, decide_eq_true_eq] at h
  obtain ⟨hne, hall⟩ := h
  constructor
  · intro hcon
    exact hne (by simp [pystrip, hcon])
  · simpa [pystrip] using hall

theorem move_pn_value_spec (frag : List Node) (v : String)
    (h : move_pn_value frag = some v) :
    ∃ d, d ≠ [] ∧ d.all Char.isDigit = true ∧ v = lstrip0 d := by
  unfold move_pn_value at h
  cases hpn1 : pn_from_divs frag with
  | some v1 =>
    simp only [hpn1, Option.some.injEq] at h
    subst h
    unfold pn_from_divs at hpn1
    cases hlast : (pnDivTexts frag).getLast? with
    | none =>
      simp only [hlast] at hpn1
      exact absurd hpn1 (by simp)
    | some t =>
      simp only [hlast] at hpn1
      cases hd : (digitRuns t.data).getLast? with
      | none =>
        simp only [hd] at hpn1
        exact absurd hpn1 (by simp)
      | some d =>
        simp only [hd, Option.some.injEq] at hpn1
        have hmem := List.mem_of_getLast?_eq_some hd
        obtain ⟨hne, hdig⟩ := digitRuns_mem t.data d hmem
        exact ⟨d, hne, hdig, hpn1.symm⟩
  | none =>
    simp only [hpn1] at h
    cases hs2 : step2_val (stripPnDivs frag) with
    | some v2 =>
      simp only [hs2, Option.some.injEq] at h
      subst h
      unfold step2_val at hs2
      cases hfind : step2_find (stripPnDivs frag) with
      | none =>
        simp only [hfind] at hs2
        exact absurd hs2 (by simp)
      | some loc =>
        simp only [hfind] at hs2
        obtain ⟨t, ht, hdig⟩ := step2_find_sound _ _ hfind
        rw [ht] at hs2
        simp only [Option.map_some', Option.some.injEq] at hs2
        obtain ⟨hne, hall⟩ := isDigits_pystrip_chars t hdig
        exact ⟨trimL t.data, hne, hall, hs2.symm⟩
    | none =>
      simp only [hs2] at h
      cases hs3 : step3_digits (step2_frag (stripPnDivs frag)) with
      | none =>
        simp only [hs3] at h
        exact absurd h (by simp)
      | some ds =>
        simp only [hs3, Option.map_some', Option.some.injEq] at h
        subst h
        unfold step3_digits at hs3
        cases hg : step3_get (step2_frag (stripPnDivs frag)) with
        | none =>
          simp only [hg] at hs3
          exact absurd hs3 (by simp)
        | some x =>
          simp only [hg, Option.map_some', Option.some.injEq] at hs3
          subst hs3
          unfold step3_get at hg
          cases hll : last_p_loc (step2_frag (stripPnDivs frag)) with
          | none =>
            simp only [hll] at hg
            exact absurd hg (by simp)
          | some loc =>
            simp only [hll] at hg
            cases hlt : locText (step2_frag (stripPnDivs frag)) loc with
            | none =>
              simp only [hlt] at hg
              exact absurd hg (by simp)
            | some raw =>
              simp only [hlt] at hg
              cases hsp : step3_split raw with
              | none =>
                simp only [hsp] at hg
                exact absurd hg (by simp)
              | some nd =>
                simp only [hsp, Option.some.injEq] at hg
                subst hg
                obtain ⟨hne, hall⟩ := step3_split_digits raw nd.1 nd.2 (by simpa using hsp)
                exact ⟨nd.2, hne, hall, rfl⟩

theorem move_page_number_pn (frag : List Node) (f : List Node) (ftr : Option String)
    (v : String) (h : move_page_number_to_footer frag = (f, ftr, some v)) :
    (∃ d, d ≠ [] ∧ d.all Char.isDigit = true ∧ v = lstrip0 d) ∧
      ftr = some ("Page Number " ++ pyIntStr v) := by
  unfold move_page_number_to_footer at h
  cases hmv : move_pn_value frag with
  | none =>
    simp only [hmv] at h
    simp at h
  | some v1 =>
    simp only [hmv, Prod.mk.injEq, Option.some.injEq] at h
    obtain ⟨-, hftr, hv⟩ := h
    subst hv
    exact ⟨move_pn_value_spec frag _ hmv, hftr.symm⟩

/-- C8: every page number the extractor reports is a digit run with
leading zeros stripped (an all-zero run normalizes to "0"), and the
footer paragraph text is "Page Number " followed by the int-normalized
value; concretely, "007" yields "7" and "000" yields "0". -/
theorem c8_leading_zero_normalization :
    (∀ frag f ftr v, move_page_number_to_footer frag = (f, ftr, some v) →
        isDigits v = true ∧ (v = "0" ∨ v.data.head? ≠ some '0') ∧
        ftr = some ("Page Number " ++ pyIntStr v)) ∧
      move_page_number_to_footer [Node.pnDiv "007"] = ([], some "Page Number 7", some "7") ∧
      move_page_number_to_footer [Node.pnDiv "000"] = ([], some "Page Number 0", some "0") := by
  refine ⟨?_, by decide, by decide⟩
  intro frag f ftr v h
  obtain ⟨⟨d, hne, hdig, hv⟩, hftr⟩ := move_page_number_pn frag f ftr v h
  obtain ⟨h1, h2⟩ := lstrip0_spec d hne hdig
  exact ⟨hv ▸ h1, hv ▸ h2, hftr⟩

/-- C8 witness: the general clause applied to the fragment whose
container text is "007". -/
theorem c8_witness :
    isDigits "7" = true ∧ ("7" = "0" ∨ ("7" : String).data.head? ≠ some '0') ∧
      (some "Page Number 7" : Option String) = some ("Page Number " ++ pyIntStr "7") := by
  exact c8_leading_zero_normalization.1 [Node.pnDiv "007"] [] (some "Page Number 7") "7"
    (by decide)

/-! ### C5: the overlap resolver -/

theorem greedySel_subset (claimed : Finset Nat) (l r : List Block)
    (h : GreedySel claimed l r) : ∀ b ∈ r, b ∈ l := by
  induction h with
  | nil => intro b hb; simp at hb
  | accept claimed b l r hov hsel ih =>
    intro b2 hb2
    rcases List.mem_cons.mp hb2 with rfl | hmem
    · exact List.mem_cons_self _ _
    · exact List.mem_cons_of_mem _ (ih b2 hmem)
  | reject claimed b l r hov hsel ih =>
    intro b2 hb2
    exact List.mem_cons_of_mem _ (ih b2 hb2)

theorem resolve_fold_greedy :
    ∀ (l : List Block) (acc : List Block) (claimed : Finset Nat),
      ∃ r, (l.foldl (fun acc b =>
          if overlap_frac b.used acc.2 < 3 / 10 then (acc.1 ++ [b], acc.2 ∪ b.used) else acc)
          (acc, claimed)).1 = acc ++ r ∧ GreedySel claimed l r := by
  intro l
  induction l with
  | nil => intro acc claimed; exact ⟨[], by simp, GreedySel.nil claimed⟩
  | cons b t ih =>
    intro acc claimed
    by_cases hov : overlap_frac b.used claimed < 3 / 10
    · obtain ⟨r, hr, hsel⟩ := ih (acc ++ [b]) (claimed ∪ b.used)
      refine ⟨b :: r, ?_, GreedySel.accept claimed b t r hov hsel⟩
      simp only [List.foldl_cons]
      rw [if_pos hov]
      simpa using hr
    · obtain ⟨r, hr, hsel⟩ := ih acc claimed
      refine ⟨r, ?_, GreedySel.reject claimed b t r hov hsel⟩
      simp only [List.foldl_cons]
      rw [if_neg hov]
      exact hr

/-- C5: the overlap resolver sorts the blocks by descending used-set size
(stably, keeping whole blocks), and then greedily accepts a block exactly
when the fraction of its token indices already claimed is strictly below
0.3, adding each accepted block's indices to the claimed set and
discarding a failing block entirely. -/
theorem c5_resolve_overlaps_greedy (blocks : List Block) :
    List.Sorted blockGe (List.insertionSort blockGe blocks) ∧
    (List.insertionSort blockGe blocks).Perm blocks ∧
    GreedySel ∅ (List.insertionSort blockGe blocks) (resolve_overlaps blocks) ∧
    (∀ b ∈ resolve_overlaps blocks, b ∈ blocks) := by
  have hsorted := List.sorted_insertionSort blockGe blocks
  have hperm := List.perm_insertionSort blockGe blocks
  obtain ⟨r, hr, hsel⟩ := resolve_fold_greedy (List.insertionSort blockGe blocks) [] ∅
  have hres : resolve_overlaps blocks = r := by
    unfold resolve_overlaps
    rw [hr]
    simp
  refine ⟨hsorted, hperm, ?_, ?_⟩
  · rw [hres]; exact hsel
  · intro b hb
    rw [hres] at hb
    exact hperm.mem_iff.mp (greedySel_subset _ _ _ hsel b hb)

/-! ### C10: folder discovery, ordering, progress events -/

theorem prefix_takeWhile {α : Type} (p : α → Bool) :
    ∀ (e l : List α), e <+: l → (∀ c ∈ e, p c = true) → e <+: l.takeWhile p := by
  intro e
  induction e with
  | nil => intro l _ _; exact List.nil_prefix
  | cons c e ih =>
    intro l hp hall
    obtain ⟨t, ht⟩ := hp
    cases l with
    | nil => simp at ht
    | cons a l2 =>
      have hc : a = c := by
        have := congrArg (fun x => x.head?) ht
        simpa using this.symm
      subst hc
      have he : e <+: l2 := ⟨t, by simpa using ht⟩
      rw [List.takeWhile_cons, if_pos (hall a (List.mem_cons_self a e))]
      obtain ⟨t2, ht2⟩ := ih l2 he (fun c hc => hall c (List.mem_cons_of_mem a hc))
      exact ⟨t2, by rw [List.cons_append, ht2]⟩

theorem fileName_data (p : String) :
    (file_name p).data = (p.data.reverse.takeWhile (fun c => ¬ c = '/')).reverse := rfl

theorem fileName_suffix (p : String) : (file_name p).data <:+ p.data := by
  rw [fileName_data]
  have h1 := List.takeWhile_prefix (l := p.data.reverse) (fun c => ¬ c = '/')
  exact List.reverse_prefix.mp (by simpa using h1)

theorem suffix_fileName (p : String) (e : List Char) (hslash : ∀ c ∈ e, ¬ c = '/')
    (h : e <:+ p.data) : e <:+ (file_name p).data := by
  rw [fileName_data]
  have hpre : e.reverse <+: p.data.reverse := by simpa using h
  have hall : ∀ c ∈ e.reverse, (fun c => decide (¬ c = '/')) c = true := by
    intro c hc
    simpa using hslash c (List.mem_reverse.mp hc)
  have := prefix_takeWhile (fun c => decide (¬ c = '/')) e.reverse p.data.reverse hpre hall
  simpa using (List.reverse_prefix.mp (by simpa using this))

theorem not_xhtml_and_html (p : String) :
    ¬ (".xhtml".data.isSuffixOf p.data = true ∧ ".html".data.isSuffixOf p.data = true) := by
  rintro ⟨h1, h2⟩
  rw [List.isSuffixOf_iff_suffix] at h1 h2
  rcases List.suffix_or_suffix_of_suffix h1 h2 with h | h
  · have := h.length_le
    simp at this
  · obtain ⟨t, ht⟩ := h
    have h1 := congrArg (fun l => l[1]?) (show t ++ ".html".data = ".xhtml".data from ht)
    have hlen := congrArg List.length ht
    simp at hlen
    cases t with
    | nil => simp at hlen
    | cons c t2 =>
      cases t2 with
      | nil => simp at h1
      | cons c2 t3 => simp at hlen

theorem filter_or_perm {α : Type} (p q : α → Bool) (hdisj : ∀ a, ¬ (p a = true ∧ q a = true)) :
    ∀ l : List α, (l.filter p ++ l.filter q).Perm (l.filter (fun a => p a || q a)) := by
  intro l
  induction l with
  | nil => simp
  | cons a t ih =>
    by_cases hp : p a
    · have hq : q a = false := by
        cases hqv : q a
        · rfl
        · exact absurd ⟨hp, hqv⟩ (hdisj a)
      simp only [List.filter_cons, hp, hq, Bool.or_true, Bool.true_or, if_true]
      simpa using ih.cons a
    · by_cases hq : q a
      · simp only [List.filter_cons]
        rw [if_neg (by simpa using hp), if_pos (by simp [hq]), if_pos (by simp [hp, hq])]
        exact List.perm_middle.trans (ih.cons a)
      · simp only [List.filter_cons]
        rw [if_neg (by simpa using hp), if_neg (by simpa using hq),
          if_neg (by simp [hp, hq])]
        exact ih

theorem collect_files_perm (files : List String) :
    (collect_files files).Perm (files.filter is_match_file) := by
  unfold collect_files
  refine (List.perm_insertionSort strLe _).trans ?_
  exact filter_or_perm _ _ (fun a => not_xhtml_and_html a) files

/-- C10: `process_folder` discovers exactly the `.html`/`.xhtml` files,
processes them in case-insensitive path-sorted order, fires a "Starting"
and a "Processed" progress event for every discovered file, returns no
artifact when zero files matched, and fires no event for a file with a
non-matching extension. -/
theorem c10_process_folder :
    (∀ files p, p ∈ collect_files files → is_match_file p = true) ∧
    (∀ files : List String, List.Sorted strLe (collect_files files)) ∧
    (∀ files : List String, (collect_files files).Perm (files.filter is_match_file)) ∧
    (∀ files k (hk : k < (collect_files files).length),
      ProgressEvent.mk k (collect_files files).length "Starting"
          (file_name ((collect_files files).get ⟨k, hk⟩)) ∈ process_folder_events files ∧
      ProgressEvent.mk (k + 1) (collect_files files).length "Processed"
          (file_name ((collect_files files).get ⟨k, hk⟩)) ∈ process_folder_events files) ∧
    (∀ files : List String, files.filter is_match_file = [] →
      process_folder_artifact files = none) ∧
    (∀ files q, q ∈ files → is_match_file q = false →
      ∀ e ∈ process_folder_events files, e.filename ≠ file_name q) := by
  have hmem : ∀ files p, p ∈ collect_files files → is_match_file p = true := by
    intro files p hp
    have := (collect_files_perm files).mem_iff.mp hp
    exact (List.mem_filter.mp this).2
  refine ⟨hmem, ?_, collect_files_perm, ?_, ?_, ?_⟩
  · intro files
    exact List.sorted_insertionSort strLe _
  · intro files k hk
    have henum : ((0 + k : Nat), (collect_files files).get ⟨k, hk⟩) ∈
        List.enumFrom 0 (collect_files files) := by
      rw [List.mk_add_mem_enumFrom_iff_getElem?]
      simp [List.getElem?_eq_getElem hk, List.get_eq_getElem]
    rw [Nat.zero_add] at henum
    constructor
    · exact List.mem_flatMap.mpr ⟨_, by simpa [List.enum] using henum, by simp⟩
    · exact List.mem_flatMap.mpr ⟨_, by simpa [List.enum] using henum, by simp⟩
  · intro files hempty
    have hnil : collect_files files = [] := by
      have hp := collect_files_perm files
      rw [hempty] at hp
      exact hp.eq_nil
    unfold process_folder_artifact
    rw [hnil]
    rfl
  · intro files q hq hnm e he
    unfold process_folder_events at he
    obtain ⟨pair, hpair, hein⟩ := List.mem_flatMap.mp he
    have hf : pair.2 ∈ collect_files files := by
      have := (List.mk_mem_enumFrom_iff_le_and_getElem?_sub (n := 0) (i := pair.1)
          (x := pair.2) (l := collect_files files)).mp (by simpa [List.enum] using hpair)
      exact List.getElem?_mem this.2
    have hmatch := hmem files pair.2 hf
    have hname : e.filename = file_name pair.2 := by
      rcases List.mem_cons.mp hein with rfl | hein2
      · rfl
      · rcases List.mem_cons.mp hein2 with rfl | hein3
        · rfl
        · simp at hein3
    intro hcon
    have hqname : file_name q = file_name pair.2 := by rw [← hcon, hname]
    have hq_match : is_match_file q = true := by
      simp only [is_match_file, Bool.or_eq_true] at hmatch ⊢
      rcases hmatch with hx | hh
      · left
        rw [List.isSuffixOf_iff_suffix] at hx ⊢
        have h1 : (".xhtml".data : List Char) <:+ (file_name pair.2).data :=
          suffix_fileName pair.2 _ (by decide) hx
        rw [← hqname] at h1
        exact h1.trans (fileName_suffix q)
      · right
        rw [List.isSuffixOf_iff_suffix] at hh ⊢
        have h1 : (".html".data : List Char) <:+ (file_name pair.2).data :=
          suffix_fileName pair.2 _ (by decide) hh
        rw [← hqname] at h1
        exact h1.trans (fileName_suffix q)
    rw [hq_match] at hnm
    exact absurd hnm (by simp)

/-- C10 witness: the folder theorem applied to concrete folders — no
artifact for a folder with no matching file, both events for the first
discovered file, and no event for a non-matching file. -/
theorem c10_witness :
    process_folder_artifact ["dir/c.txt"] = none ∧
    (ProgressEvent.mk 0 (collect_files ["a.xhtml", "b.txt"]).length "Starting"
        (file_name ((collect_files ["a.xhtml", "b.txt"]).get ⟨0, by decide⟩)) ∈
      process_folder_events ["a.xhtml", "b.txt"]) ∧
    (∀ e ∈ process_folder_events ["b.txt", "a.html"], e.filename ≠ file_name "b.txt") := by
  refine ⟨?_, ?_, ?_⟩
  · exact c10_process_folder.2.2.2.2.1 ["dir/c.txt"] (by decide)
  · exact (c10_process_folder.2.2.2.1 ["a.xhtml", "b.txt"] 0 (by decide)).1
  · intro e he
    exact c10_process_folder.2.2.2.2.2 ["b.txt", "a.html"] "b.txt" (by decide) (by decide) e he

/-! ### C2: the aside-trailing merge stops on "." only -/

theorem scan_decomp : ∀ (l pre : List Node) (x : Node) (rest : List Node),
    scan_non_ignorable l = some (pre, x, rest) →
    l = pre ++ x :: rest ∧ (∀ n ∈ pre, is_ignorable_media_node n = true) ∧
      is_ignorable_media_node x = false := by
  intro l
  induction l with
  | nil => intro pre x rest h; exact absurd h (by simp [scan_non_ignorable])
  | cons n t ih =>
    intro pre x rest h
    rw [scan_non_ignorable] at h
    by_cases hn : is_ignorable_media_node n = true
    · rw [if_pos hn] at h
      cases hs : scan_non_ignorable t with
      | none => rw [hs] at h; exact absurd h (by simp)
      | some r =>
        obtain ⟨pre2, x2, rest2⟩ := r
        rw [hs] at h
        simp only [Option.some.injEq, Prod.mk.injEq] at h
        obtain ⟨h1, h2, h3⟩ := h
        obtain ⟨hdec, hmem, hx⟩ := ih pre2 x2 rest2 hs
        refine ⟨?_, ?_, h2 ▸ hx⟩
        · rw [← h1, ← h2, ← h3, hdec]; rfl
        · intro m hm
          rw [← h1] at hm
          rcases List.mem_cons.mp hm with hm | hm
          · exact hm ▸ hn
          · exact hmem m hm
    · rw [if_neg hn] at h
      simp only [Option.some.injEq, Prod.mk.injEq] at h
      obtain ⟨h1, h2, h3⟩ := h
      subst h1 h2 h3
      exact ⟨rfl, by intro m hm; exact absurd hm (List.not_mem_nil m),
        Bool.not_eq_true _ ▸ hn⟩

theorem join_with_space_decomp (t u : String) :
    ∃ w, join_with_space t u = t ++ w := by
  unfold join_with_space
  split
  · exact ⟨" " ++ u, by rw [String.append_assoc]⟩
  · exact ⟨u, rfl⟩

theorem aside_absorb_fuel_text_prefix : ∀ (fuel : Nat) (t : String) (l : List Node),
    ∃ s, (aside_absorb_fuel fuel t l).1 = t ++ s := by
  intro fuel
  induction fuel with
  | zero => intro t l; exact ⟨"", by simp [aside_absorb_fuel]⟩
  | succ f ih =>
    intro t l
    rw [aside_absorb_fuel]
    by_cases hd : ends_with_dot t = true
    · rw [if_pos hd]; exact ⟨"", by simp⟩
    · rw [if_neg hd]
      cases hs : scan_non_ignorable l with
      | none => exact ⟨"", by simp [hs]⟩
      | some r =>
        obtain ⟨pre, x, rest⟩ := r
        cases x with
        | p u =>
          obtain ⟨s1, hs1⟩ := ih (join_with_space t u) rest
          obtain ⟨w, hw⟩ := join_with_space_decomp t u
          refine ⟨w ++ s1, ?_⟩
          simp only [hs]
          rw [hs1, hw, String.append_assoc]
        | aside ps => exact ⟨"", by simp [hs]⟩
        | pnDiv s => exact ⟨"", by simp [hs]⟩
        | hlist hl => exact ⟨"", by simp [hs]⟩
        | htable rows => exact ⟨"", by simp [hs]⟩
        | media => exact ⟨"", by simp [hs]⟩
        | otherTag => exact ⟨"", by simp [hs]⟩
        | textNode s => exact ⟨"", by simp [hs]⟩
        | comment s => exact ⟨"", by simp [hs]⟩

theorem aside_absorb_fuel_len : ∀ (fuel : Nat) (t : String) (l : List Node),
    (aside_absorb_fuel fuel t l).2.length ≤ l.length := by
  intro fuel
  induction fuel with
  | zero => intro t l; simp [aside_absorb_fuel]
  | succ f ih =>
    intro t l
    rw [aside_absorb_fuel]
    by_cases hd : ends_with_dot t = true
    · rw [if_pos hd]
    · rw [if_neg hd]
      cases hs : scan_non_ignorable l with
      | none => simp [hs]
      | some r =>
        obtain ⟨pre, x, rest⟩ := r
        have hdec := (scan_decomp l pre x rest hs).1
        cases x with
        | p u =>
          simp only [hs]
          have hlen := ih (join_with_space t u) rest
          calc (pre ++ (aside_absorb_fuel f (join_with_space t u) rest).2).length
              = pre.length + (aside_absorb_fuel f (join_with_space t u) rest).2.length := by
                simp
            _ ≤ pre.length + rest.length := by omega
            _ ≤ l.length := by rw [hdec]; simp
        | aside ps => simp [hs]
        | pnDiv s => simp [hs]
        | hlist hl => simp [hs]
        | htable rows => simp [hs]
        | media => simp [hs]
        | otherTag => simp [hs]
        | textNode s => simp [hs]
        | comment s => simp [hs]

theorem aside_absorb_dot (t : String) (l : List Node) (h : ends_with_dot t = true) :
    aside_absorb t l = (t, l) := by
  cases l with
  | nil => rfl
  | cons n m => simp [aside_absorb, aside_absorb_fuel, h]

/-- C2: the absorption condition of `merge_outside_p_after_aside` tests only
for a trailing "."—not for the full terminal-punctuation set `. ! ?`.  When
the aside's last paragraph ends in "." the aside is left unchanged and no
sibling is absorbed; when it does not end in "." (even if it ends in "!" or
"?") and the next non-ignorable sibling is a paragraph, that paragraph is
spliced into the aside's last paragraph with the single-space separator and
removed from the sibling list. -/
theorem c2_aside_merge_dot_only (ps : List String) (rest : List Node) (lastp : String)
    (hlast : ps.getLast? = some lastp) :
    (ends_with_dot lastp = true →
      merge_outside_p_after_aside (Node.aside ps :: rest)
        = Node.aside ps :: merge_outside_aux rest.length rest) ∧
    (ends_with_dot lastp = false →
      ∀ pre u rest2, scan_non_ignorable rest = some (pre, Node.p u, rest2) →
        ∃ t2 s rest3,
          merge_outside_p_after_aside (Node.aside ps :: rest)
            = Node.aside (ps.dropLast ++ [t2])
                :: merge_outside_aux rest.length (pre ++ rest3) ∧
          t2 = join_with_space lastp u ++ s ∧
          rest3.length ≤ rest2.length) := by
  have hps : ps.dropLast ++ [lastp] = ps :=
    List.dropLast_append_getLast? lastp (by simp [Option.mem_def, hlast])
  constructor
  · intro hd
    show merge_outside_aux (rest.length + 1) (Node.aside ps :: rest) = _
    rw [merge_outside_aux]
    simp only [hlast]
    rw [aside_absorb_dot lastp rest hd]
    rw [hps]
  · intro hd pre u rest2 hscan
    have hdec := (scan_decomp rest pre (Node.p u) rest2 hscan).1
    have hk : rest.length = pre.length + rest2.length + 1 := by
      rw [hdec]; simp; omega
    have habs : aside_absorb lastp rest =
        ((aside_absorb_fuel (pre.length + rest2.length) (join_with_space lastp u) rest2).1,
          pre ++ (aside_absorb_fuel (pre.length + rest2.length)
            (join_with_space lastp u) rest2).2) := by
      rw [aside_absorb, hk, aside_absorb_fuel, if_neg (by simp [hd])]
      simp only [hscan]
    obtain ⟨s, hs⟩ := aside_absorb_fuel_text_prefix (pre.length + rest2.length)
      (join_with_space lastp u) rest2
    refine ⟨(aside_absorb_fuel (pre.length + rest2.length)
        (join_with_space lastp u) rest2).1, s,
      (aside_absorb_fuel (pre.length + rest2.length)
        (join_with_space lastp u) rest2).2, ?_, hs, ?_⟩
    · show merge_outside_aux (rest.length + 1) (Node.aside ps :: rest) = _
      rw [merge_outside_aux]
      simp only [hlast]
      rw [habs]
    · exact aside_absorb_fuel_len (pre.length + rest2.length) (join_with_space lastp u) rest2

/-- C2 witness: the splice branch evaluated at a one-aside fragment whose
last paragraph "Hi" does not end in ".", followed by the paragraph
"There.". -/
theorem c2_witness :
    ∃ t2 s rest3,
      merge_outside_p_after_aside [Node.aside ["Hi"], Node.p "There."]
        = Node.aside (["Hi"].dropLast ++ [t2])
            :: merge_outside_aux [Node.p "There."].length ([] ++ rest3) ∧
      t2 = join_with_space "Hi" "There." ++ s ∧
      rest3.length ≤ ([] : List Node).length :=
  (c2_aside_merge_dot_only ["Hi"] [Node.p "There."] "Hi" rfl).2 (by decide)
    [] "There." [] rfl

/-- C2 counterexample: the aside's last paragraph "Hi!" ends in the
terminal mark "!", yet the following paragraph is absorbed anyway, because
the source's loop condition is `ends_with_dot` (a "."-only test). -/
theorem c2_counterexample :
    merge_outside_p_after_aside [Node.aside ["Hi!"], Node.p "There."]
      = [Node.aside ["Hi! There."]] := by decide

/-! ### C1: container value wins; trailing digit paragraph still removed -/

theorem step2_find_none_of_all_skip : ∀ l : List Node,
    l.all skip_for_trailing = true → step2_find l = none := by
  intro l
  induction l with
  | nil => intro _; rfl
  | cons n rest ih =>
    intro h
    simp only [List.all_cons, Bool.and_eq_true] at h
    rw [step2_find, ih h.2]
    cases n with
    | pnDiv s => rfl
    | media => rfl
    | textNode s => rfl
    | comment s => rfl
    | p t => exact absurd h.1 (by simp [skip_for_trailing])
    | aside ps => exact absurd h.1 (by simp [skip_for_trailing])
    | hlist hl => exact absurd h.1 (by simp [skip_for_trailing])
    | htable rows => exact absurd h.1 (by simp [skip_for_trailing])
    | otherTag => exact absurd h.1 (by simp [skip_for_trailing])

theorem step2_find_append_p (t : String) (post : List Node)
    (h4 : isDigits (pystrip t) = true) (h5 : post.all skip_for_trailing = true) :
    ∀ pre : List Node,
      step2_find (pre ++ Node.p t :: post) = some (PLoc.top pre.length) := by
  intro pre
  induction pre with
  | nil =>
    rw [List.nil_append, step2_find, step2_find_none_of_all_skip post h5]
    simp [step2_head_cand, h4, h5]
  | cons n pre2 ih =>
    rw [List.cons_append, step2_find, ih]
    rfl

theorem eraseIdx_append_cons : ∀ (pre : List Node) (x : Node) (post : List Node),
    (pre ++ x :: post).eraseIdx pre.length = pre ++ post := by
  intro pre
  induction pre with
  | nil => intro x post; rfl
  | cons n pre2 ih => intro x post; simp [List.eraseIdx, ih]

theorem modifyAt_pres : ∀ (l : List Node) (k : Nat) (f : Node → Node),
    (∀ n, n.isPnDiv = false → (f n).isPnDiv = false) →
    (∀ n ∈ l, n.isPnDiv = false) → ∀ n ∈ modifyAt l k f, n.isPnDiv = false := by
  intro l
  induction l with
  | nil => intro k f _ _ n hn; exact absurd hn (List.not_mem_nil n)
  | cons m rest ih =>
    intro k f hf hl n hn
    cases k with
    | zero =>
      rw [modifyAt] at hn
      rcases List.mem_cons.mp hn with hn | hn
      · exact hn ▸ hf m (hl m (List.mem_cons_self m rest))
      · exact hl n (List.mem_cons_of_mem m hn)
    | succ k2 =>
      rw [modifyAt] at hn
      rcases List.mem_cons.mp hn with hn | hn
      · exact hn ▸ hl m (List.mem_cons_self m rest)
      · exact ih k2 f hf (fun x hx => hl x (List.mem_cons_of_mem m hx)) n hn

theorem setLocText_pres (l : List Node) (loc : PLoc) (t : String)
    (hl : ∀ n ∈ l, n.isPnDiv = false) :
    ∀ n ∈ setLocText l loc t, n.isPnDiv = false := by
  cases loc with
  | top k =>
    refine modifyAt_pres l k _ ?_ hl
    intro n hn
    cases n <;> simp_all [Node.isPnDiv]
  | innerLast k =>
    refine modifyAt_pres l k _ ?_ hl
    intro n hn
    cases n <;> simp_all [Node.isPnDiv]

theorem step3_frag_pres (l : List Node) (hl : ∀ n ∈ l, n.isPnDiv = false) :
    ∀ n ∈ step3_frag l, n.isPnDiv = false := by
  rw [step3_frag]
  cases hs : step3_get l with
  | none => exact hl
  | some r =>
    obtain ⟨loc, newt, ds⟩ := r
    exact setLocText_pres l loc newt hl

theorem mem_stripPnDivs (l : List Node) (n : Node) (h : n ∈ stripPnDivs l) :
    n.isPnDiv = false := by
  rw [stripPnDivs] at h
  have := (List.mem_filter.mp h).2
  simpa using this

/-- C1: when the fragment has a page-number container whose text carries a
digit run, and (after container removal) a trailing all-digit paragraph,
the reported page number is the container's normalized value (the
container wins), every page-number container is removed, and the trailing
all-digit paragraph is still decomposed. -/
theorem c1_container_precedence (frag : List Node) (ct t : String) (d : List Char)
    (pre post : List Node)
    (h1 : (pnDivTexts frag).getLast? = some ct)
    (h2 : (digitRuns ct.data).getLast? = some d)
    (h3 : stripPnDivs frag = pre ++ Node.p t :: post)
    (h4 : isDigits (pystrip t) = true)
    (h5 : post.all skip_for_trailing = true) :
    move_page_number_to_footer frag =
      (step3_frag (pre ++ post), some ("Page Number " ++ pyIntStr (lstrip0 d)),
        some (lstrip0 d)) ∧
    ∀ n ∈ (move_page_number_to_footer frag).1, n.isPnDiv = false := by
  have hdivs : pn_from_divs frag = some (lstrip0 d) := by
    rw [pn_from_divs]
    simp only [h1, h2]
  have hval : move_pn_value frag = some (lstrip0 d) := by
    rw [move_pn_value]
    simp only [hdivs]
  have hfind : step2_find (stripPnDivs frag) = some (PLoc.top pre.length) := by
    rw [h3]; exact step2_find_append_p t post h4 h5 pre
  have hfrag2 : step2_frag (stripPnDivs frag) = pre ++ post := by
    rw [step2_frag, hfind, h3]
    exact eraseIdx_append_cons pre (Node.p t) post
  have hmem : ∀ n ∈ pre ++ post, n.isPnDiv = false := by
    intro n hn
    refine mem_stripPnDivs frag n ?_
    rw [h3]
    rcases List.mem_append.mp hn with hn | hn
    · exact List.mem_append.mpr (Or.inl hn)
    · exact List.mem_append.mpr (Or.inr (List.mem_cons_of_mem _ hn))
  have hmain : move_page_number_to_footer frag =
      (step3_frag (pre ++ post), some ("Page Number " ++ pyIntStr (lstrip0 d)),
        some (lstrip0 d)) := by
    rw [move_page_number_to_footer, hval, hfrag2]
  refine ⟨hmain, ?_⟩
  rw [hmain]
  exact step3_frag_pres (pre ++ post) hmem

/-- C1 witness: the fragment `[<div class="epub-page-number">page 5</div>,
<p>9</p>]` reports "5" (the container's value), not "9", and both the
containers and the trailing digit paragraph are gone. -/
theorem c1_witness :
    move_page_number_to_footer [Node.pnDiv "page 5", Node.p "9"] =
      (step3_frag ([] ++ []),
        some ("Page Number " ++ pyIntStr (lstrip0 ['5'])), some (lstrip0 ['5'])) ∧
    ∀ n ∈ (move_page_number_to_footer [Node.pnDiv "page 5", Node.p "9"]).1,
      n.isPnDiv = false :=
  c1_container_precedence [Node.pnDiv "page 5", Node.p "9"] "page 5" "9" ['5']
    [] [] (by decide) (by decide) (by decide) (by decide) (by decide)

/-! ### C7: the linearizer's line count -/

theorem str_ne_empty_of_data (s : String) (h : s.data ≠ []) : s ≠ "" :=
  fun he => h (he ▸ rfl)

theorem append_ne_empty_left (a b : String) (h : a.data ≠ []) : a ++ b ≠ "" := by
  refine str_ne_empty_of_data _ ?_
  simp only [String.data_append]
  exact fun hc => h (List.append_eq_nil.mp hc).1

theorem intercalate_go_data : ∀ (as : List String) (acc s : String),
    ∃ t, (String.intercalate.go acc s as).data = acc.data ++ t := by
  intro as
  induction as with
  | nil => intro acc s; exact ⟨[], by simp [String.intercalate.go]⟩
  | cons a as2 ih =>
    intro acc s
    obtain ⟨t, ht⟩ := ih (acc ++ s ++ a) s
    refine ⟨s.data ++ a.data ++ t, ?_⟩
    rw [String.intercalate.go, ht]
    simp [String.data_append]

theorem filterMap_all_some_length {α β : Type} (f : α → Option β) :
    ∀ l : List α, (∀ x ∈ l, (f x).isSome = true) → (l.filterMap f).length = l.length := by
  intro l
  induction l with
  | nil => intro _; rfl
  | cons x xs ih =>
    intro h
    rw [List.filterMap_cons]
    cases hf : f x with
    | none => exact absurd (h x (List.mem_cons_self x xs)) (by simp [hf])
    | some b => simp [ih (fun y hy => h y (List.mem_cons_of_mem x hy))]

theorem dump_sublist_len (sl : SubList) (h : sl.items.all nonblank = true) :
    (dump_sublist sl).length = sl.items.length := by
  rw [dump_sublist, filterMap_all_some_length]
  · simp
  · rw [List.forall_mem_enumFrom]
    intro i hi
    have hnb : nonblank sl.items[i] = true :=
      List.all_eq_true.mp h _ (List.getElem_mem hi)
    have hnb2 : clean sl.items[i] ≠ "" := by simpa [nonblank] using hnb
    simp [hnb2]

theorem dump_table_len (rows : List (List Cell))
    (h : rows.all (fun tr => (tr.map (fun c => clean c.txt)).any (fun c => c ≠ "")) = true) :
    (dump_table rows).length = rows.length := by
  rw [dump_table, filterMap_all_some_length]
  intro tr htr
  have := List.all_eq_true.mp h tr htr
  simp_all

theorem subs_flatMap_len (subs : List SubList)
    (h : subs.all (fun sl => sl.items.all nonblank) = true) :
    (subs.flatMap dump_sublist).length = (subs.map (fun s => s.items.length)).sum := by
  induction subs with
  | nil => rfl
  | cons sl rest ih =>
    simp only [List.all_cons, Bool.and_eq_true] at h
    rw [List.flatMap_cons, List.length_append, dump_sublist_len sl h.1, ih h.2,
      List.map_cons, List.sum_cons]

theorem dump_list_len_aux (ordered : Bool) (typ : String) :
    ∀ (items : List LItem) (start : Nat),
      items.all (fun it => nonblank it.txt
          && it.subs.all (fun sl => sl.items.all nonblank)) = true →
      ((List.enumFrom start items).flatMap (fun it =>
        (if clean it.2.txt ≠ "" then [marker_for ordered typ it.1 ++ clean it.2.txt]
         else []) ++ it.2.subs.flatMap dump_sublist)).length
        = items.length
          + (items.map (fun it => (it.subs.map (fun s => s.items.length)).sum)).sum := by
  intro items
  induction items with
  | nil => intro _ _; rfl
  | cons it rest ih =>
    intro start h
    simp only [List.all_cons, Bool.and_eq_true] at h
    obtain ⟨⟨hnb, hsubs⟩, hrest⟩ := h
    rw [List.enumFrom_cons, List.flatMap_cons, List.length_append,
      ih (start + 1) (by simp [List.all_eq_true] at hrest ⊢; exact hrest)]
    have hnb2 : clean it.txt ≠ "" := by simpa [nonblank] using hnb
    rw [List.length_append, if_pos hnb2, subs_flatMap_len it.subs hsubs]
    simp [Nat.add_assoc, Nat.add_comm, Nat.add_left_comm]

theorem dump_list_len (hl : HtmlList)
    (h : hl.items.all (fun it => nonblank it.txt
        && it.subs.all (fun sl => sl.items.all nonblank)) = true) :
    (dump_list hl).length = hl.items.length
      + (hl.items.map (fun it => (it.subs.map (fun s => s.items.length)).sum)).sum :=
  dump_list_len_aux hl.ordered hl.typ hl.items hl.start h

theorem dump_table_lines_ne (rows : List (List Cell)) :
    ∀ s ∈ dump_table rows, s ≠ "" := by
  intro s hs
  rw [dump_table] at hs
  obtain ⟨tr, htrm, hf⟩ := List.mem_filterMap.mp hs
  have hfull : (∃ a ∈ tr, ¬clean a.txt = "") ∧
      String.intercalate " | " (tr.map (fun c => clean c.txt)) = s := by
    simpa using hf
  obtain ⟨⟨a, ha, hane⟩, hf2⟩ := hfull
  rcases htr : tr.map (fun c => clean c.txt) with _ | ⟨c, rest⟩
  · rcases List.map_eq_nil_iff.mp htr with rfl
    exact absurd ha (List.not_mem_nil a)
  · rw [htr] at hf2
    rcases rest with _ | ⟨c2, rest2⟩
    · have hmem : clean a.txt ∈ [c] := htr ▸ List.mem_map_of_mem _ ha
      have hc : c ≠ "" := (List.mem_singleton.mp hmem) ▸ hane
      rw [← hf2]
      exact hc
    · rw [← hf2]
      show String.intercalate.go c " | " (c2 :: rest2) ≠ ""
      obtain ⟨t, ht⟩ := intercalate_go_data rest2 (c ++ " | " ++ c2) " | "
      refine str_ne_empty_of_data _ ?_
      rw [show String.intercalate.go c " | " (c2 :: rest2)
          = String.intercalate.go (c ++ " | " ++ c2) " | " rest2 from rfl, ht]
      intro hc
      have h1 := (List.append_eq_nil.mp hc).1
      rw [String.data_append] at h1
      have h2 := (List.append_eq_nil.mp h1).1
      rw [String.data_append] at h2
      exact absurd (List.append_eq_nil.mp h2).2 (by decide)

theorem dump_sublist_lines_ne (sl : SubList) : ∀ s ∈ dump_sublist sl, s ≠ "" := by
  intro s hs
  rw [dump_sublist] at hs
  obtain ⟨e, _, hf⟩ := List.mem_filterMap.mp hs
  by_cases hc : clean e.2 ≠ ""
  · have hf2 : "  " ++ marker_for sl.ordered sl.typ e.1 ++ clean e.2 = s := by
      simpa [hc] using hf
    rw [← hf2]
    refine append_ne_empty_left _ _ ?_
    rw [String.data_append]
    intro hcon
    exact absurd (List.append_eq_nil.mp hcon).1 (by decide)
  · exact absurd hf (by simp [hc])

theorem marker_for_data_ne (ordered : Bool) (typ : String) (idx : Nat) :
    (marker_for ordered typ idx).data ≠ [] := by
  rw [marker_for]
  split
  · split <;> simp [String.data_append]
  · simp

theorem dump_list_lines_ne (hl : HtmlList) : ∀ s ∈ dump_list hl, s ≠ "" := by
  intro s hs
  rw [dump_list] at hs
  obtain ⟨e, _, hf⟩ := List.mem_flatMap.mp hs
  rcases List.mem_append.mp hf with hf | hf
  · split at hf
    · rcases List.mem_singleton.mp hf with rfl
      exact append_ne_empty_left _ _ (marker_for_data_ne hl.ordered hl.typ e.1)
    · exact absurd hf (List.not_mem_nil s)
  · obtain ⟨sl, _, hsl⟩ := List.mem_flatMap.mp hf
    exact dump_sublist_lines_ne sl s hsl

theorem recompute_lines_ne : ∀ l : List Node, ∀ s ∈ recompute_lines l, s ≠ "" := by
  intro l
  induction l with
  | nil => intro s hs; exact absurd hs (List.not_mem_nil s)
  | cons n rest ih =>
    intro s hs
    cases n with
    | p t =>
      simp only [recompute_lines] at hs
      rcases List.mem_append.mp hs with hs | hs
      · split at hs
        · rcases List.mem_singleton.mp hs with rfl; assumption
        · exact absurd hs (List.not_mem_nil s)
      · exact ih s hs
    | hlist hl =>
      simp only [recompute_lines] at hs
      rcases List.mem_append.mp hs with hs | hs
      · exact dump_list_lines_ne hl s hs
      · exact ih s hs
    | aside ps =>
      simp only [recompute_lines] at hs
      rcases hh : ps.head? with _ | t
      · simp only [hh] at hs
        rcases List.mem_append.mp hs with hs | hs
        · exact absurd hs (List.not_mem_nil s)
        · exact ih s hs
      · simp only [hh] at hs
        rcases List.mem_append.mp hs with hs | hs
        · split at hs
          · rcases List.mem_singleton.mp hs with rfl; assumption
          · exact absurd hs (List.not_mem_nil s)
        · exact ih s hs
    | htable rows =>
      simp only [recompute_lines] at hs
      rcases List.mem_append.mp hs with hs | hs
      · exact dump_table_lines_ne rows s hs
      · exact ih s hs
    | pnDiv t => simp only [recompute_lines, List.nil_append] at hs; exact ih s hs
    | media => simp only [recompute_lines, List.nil_append] at hs; exact ih s hs
    | otherTag => simp only [recompute_lines, List.nil_append] at hs; exact ih s hs
    | textNode t => simp only [recompute_lines, List.nil_append] at hs; exact ih s hs
    | comment t => simp only [recompute_lines, List.nil_append] at hs; exact ih s hs

theorem recompute_lines_len : ∀ l : List Node, l.all node_lines_match = true →
    (recompute_lines l).length = semantic_leaf_count l := by
  intro l
  induction l with
  | nil => intro _; rfl
  | cons n rest ih =>
    intro h
    simp only [List.all_cons, Bool.and_eq_true] at h
    obtain ⟨hn, hrest⟩ := h
    have hrec := ih hrest
    simp only [semantic_leaf_count] at hrec ⊢
    cases n with
    | p t =>
      have hc : clean t ≠ "" := by simpa [node_lines_match, nonblank] using hn
      simp only [recompute_lines, List.length_append, List.map_cons, List.sum_cons,
        if_pos hc, leafCountNode, List.length_singleton, hrec]
    | aside ps =>
      rcases hh : ps.head? with _ | t
      · rw [node_lines_match, hh] at hn
        exact absurd hn (by simp)
      · rw [node_lines_match, hh] at hn
        have hc : clean t ≠ "" := by simpa [nonblank] using hn
        simp only [recompute_lines, hh, List.length_append, List.map_cons,
          List.sum_cons, if_pos hc, leafCountNode, List.length_singleton, hrec]
    | hlist hl =>
      have hlen := dump_list_len hl (by simpa [node_lines_match] using hn)
      simp only [recompute_lines, List.length_append, List.map_cons, List.sum_cons,
        hlen, leafCountNode, hrec]
    | htable rows =>
      have hlen := dump_table_len rows (by simpa [node_lines_match] using hn)
      simp only [recompute_lines, List.length_append, List.map_cons, List.sum_cons,
        hlen, leafCountNode, hrec]
    | pnDiv t =>
      simp only [recompute_lines, List.length_append, List.map_cons, List.sum_cons,
        leafCountNode, List.length_nil, hrec]
    | media =>
      simp only [recompute_lines, List.length_append, List.map_cons, List.sum_cons,
        leafCountNode, List.length_nil, hrec]
    | otherTag =>
      simp only [recompute_lines, List.length_append, List.map_cons, List.sum_cons,
        leafCountNode, List.length_nil, hrec]
    | textNode t =>
      simp only [recompute_lines, List.length_append, List.map_cons, List.sum_cons,
        leafCountNode, List.length_nil, hrec]
    | comment t =>
      simp only [recompute_lines, List.length_append, List.map_cons, List.sum_cons,
        leafCountNode, List.length_nil, hrec]

/-- C7: the round-trip count identity holds for fragments whose semantic
leaves are all non-blank: every produced line is non-empty, and under the
`node_lines_match` well-formedness condition the number of lines produced
by the linearizer equals the semantic-leaf count (paragraphs + list items
+ table rows + asides).  (A blank leaf emits no line, so the unconditional
identity fails.) -/
theorem c7_line_count (l : List Node) (h : l.all node_lines_match = true) :
    (recompute_lines l).length = semantic_leaf_count l ∧
    ∀ s ∈ recompute_lines l, s ≠ "" :=
  ⟨recompute_lines_len l h, recompute_lines_ne l⟩

/-- C7 witness: the identity evaluated on a fragment with a paragraph, an
aside, a two-item list and a one-row table. -/
theorem c7_witness :
    (recompute_lines [Node.p "Hi.", Node.aside ["A note"],
        Node.hlist (HtmlList.mk true "1" 1 [LItem.mk "first" [], LItem.mk "second" []]),
        Node.htable [[Cell.mk false "x", Cell.mk false "y"]]]).length =
      semantic_leaf_count [Node.p "Hi.", Node.aside ["A note"],
        Node.hlist (HtmlList.mk true "1" 1 [LItem.mk "first" [], LItem.mk "second" []]),
        Node.htable [[Cell.mk false "x", Cell.mk false "y"]]] ∧
    ∀ s ∈ recompute_lines [Node.p "Hi.", Node.aside ["A note"],
        Node.hlist (HtmlList.mk true "1" 1 [LItem.mk "first" [], LItem.mk "second" []]),
        Node.htable [[Cell.mk false "x", Cell.mk false "y"]]], s ≠ "" :=
  c7_line_count [Node.p "Hi.", Node.aside ["A note"],
      Node.hlist (HtmlList.mk true "1" 1 [LItem.mk "first" [], LItem.mk "second" []]),
      Node.htable [[Cell.mk false "x", Cell.mk false "y"]]] (by decide)

/-- C7 counterexample: a fragment with a blank second paragraph produces
one line but has two semantic leaves, so the unconditional count identity
of the claim fails. -/
theorem c7_counterexample :
    (recompute_lines [Node.p "Hi.", Node.p " "]).length ≠
      semantic_leaf_count [Node.p "Hi.", Node.p " "] := by decide

/-! ### C6: the uppercase first-word guard of the sentence merge -/

theorem takeWhile_len_all {α : Type} (q : α → Bool) :
    ∀ l : List α, (l.takeWhile q).length = l.length → ∀ x ∈ l, q x = true := by
  intro l
  induction l with
  | nil => intro _ x hx; exact absurd hx (List.not_mem_nil x)
  | cons a as ih =>
    intro h x hx
    rw [List.takeWhile_cons] at h
    by_cases hq : q a = true
    · rw [if_pos hq] at h
      simp only [List.length_cons] at h
      have h2 : (as.takeWhile q).length = as.length := by omega
      rcases List.mem_cons.mp hx with rfl | hx
      · exact hq
      · exact ih h2 x hx
    · rw [if_neg hq] at h
      exact absurd h (by simp)

theorem dropWhile_getLast? {α : Type} (p : α → Bool) (l : List α)
    (h : l.dropWhile p ≠ []) : (l.dropWhile p).getLast? = l.getLast? := by
  obtain ⟨s, hs⟩ := List.dropWhile_suffix (l := l) p
  conv_rhs => rw [← hs]
  exact (List.getLast?_append_of_ne_nil s h).symm

theorem fwcL_join (t u : String) :
    fwcL (join_with_space t u).data =
      if t.data.dropWhile (fun c => ¬ wordChar c) = [] then fwcL u.data
      else fwcL t.data := by
  rw [join_with_space]
  split
  · have hdata : (t ++ " " ++ u).data = t.data ++ (' ' :: u.data) := by
      rw [String.data_append, String.data_append]
      simp
    rw [show fwcL (t ++ " " ++ u).data
        = ((t.data ++ (' ' :: u.data)).dropWhile (fun c => ¬ wordChar c)).takeWhile
            (fun c => ¬ c.isWhitespace) from by rw [fwcL, hdata]]
    rw [List.dropWhile_append]
    by_cases hw : t.data.dropWhile (fun c => ¬ wordChar c) = []
    · rw [if_pos (by rw [hw]; rfl), if_pos hw]
      rw [List.dropWhile_cons, if_pos (by decide)]
      rw [fwcL]
    · rw [if_neg (by simpa using hw), if_neg hw]
      rw [List.takeWhile_append]
      by_cases hlen : ((t.data.dropWhile (fun c => ¬ wordChar c)).takeWhile
            (fun c => ¬ c.isWhitespace)).length
          = (t.data.dropWhile (fun c => ¬ wordChar c)).length
      · rw [if_pos hlen, List.takeWhile_cons, if_neg (by decide), List.append_nil, fwcL]
        exact ((List.takeWhile_prefix _).eq_of_length hlen).symm
      · rw [if_neg hlen, fwcL]
  · rename_i hcond
    push_neg at hcond
    by_cases ht : t = ""
    · subst ht
      have hd : ("" ++ u).data = u.data := by
        rw [String.data_append]
        rfl
      rw [show fwcL ("" ++ u).data = fwcL u.data from by rw [hd]]
      rw [if_pos (by simp [show ("" : String).data = [] from rfl])]
    · have hA := hcond ht
      rw [show fwcL (t ++ u).data
          = ((t.data ++ u.data).dropWhile (fun c => ¬ wordChar c)).takeWhile
              (fun c => ¬ c.isWhitespace) from by rw [fwcL, String.data_append]]
      rw [List.dropWhile_append]
      by_cases hw : t.data.dropWhile (fun c => ¬ wordChar c) = []
      · rw [if_pos (by rw [hw]; rfl), if_pos hw, fwcL]
      · rw [if_neg (by simpa using hw), if_neg hw]
        rw [List.takeWhile_append]
        by_cases hlen : ((t.data.dropWhile (fun c => ¬ wordChar c)).takeWhile
              (fun c => ¬ c.isWhitespace)).length
            = (t.data.dropWhile (fun c => ¬ wordChar c)).length
        · exfalso
          have hall := takeWhile_len_all _ _ hlen
          have hgl : (t.data.dropWhile (fun c => ¬ wordChar c)).getLast?
              = t.data.getLast? := dropWhile_getLast? _ _ hw
          rcases hA with h | h | h
          · exact absurd (hall ' ' (List.mem_of_getLast?_eq_some (hgl.trans h))) (by decide)
          · exact absurd (hall '\n' (List.mem_of_getLast?_eq_some (hgl.trans h))) (by decide)
          · exact absurd (hall '\t' (List.mem_of_getLast?_eq_some (hgl.trans h))) (by decide)
        · rw [if_neg hlen, fwcL]

theorem begins_implies_has (u : String) (h : first_word_begins_uppercase u = true) :
    first_word_has_uppercase u = true := by
  rw [first_word_begins_uppercase] at h
  rw [first_word_has_uppercase]
  cases hc : first_word_chars u with
  | nil => rw [hc] at h; exact absurd h (by simp)
  | cons c cs =>
    simp only [hc] at h
    simp [hc, h]

theorem upper_entry_join (t u : String) (hu : first_word_has_uppercase u = false) :
    upper_entry (Node.p (join_with_space t u)) = upper_entry (Node.p t) := by
  rw [upper_entry, upper_entry]
  have hJ := fwcL_join t u
  by_cases hw : t.data.dropWhile (fun c => ¬ wordChar c) = []
  · rw [if_pos hw] at hJ
    have h1 : first_word_has_uppercase (join_with_space t u) = false := by
      rw [first_word_has_uppercase, first_word_chars, hJ]
      rw [first_word_has_uppercase, first_word_chars] at hu
      exact hu
    have h2 : first_word_has_uppercase t = false := by
      rw [first_word_has_uppercase, first_word_chars, fwcL, hw]
      rfl
    simp [h1, h2]
  · rw [if_neg hw] at hJ
    have h1 : first_word_chars (join_with_space t u) = first_word_chars t := by
      rw [first_word_chars, first_word_chars, hJ]
    simp only [first_word_has_uppercase, h1]

theorem filterMap_cons_congr {α β : Type} (f : α → Option β) (a a' : α) (l l' : List α)
    (h1 : f a = f a') (h2 : l.filterMap f = l'.filterMap f) :
    (a :: l).filterMap f = (a' :: l').filterMap f := by
  rw [List.filterMap_cons, List.filterMap_cons, h1, h2]

theorem p_absorb_census : ∀ (fuel : Nat) (t : String) (l : List Node),
    upper_entry (Node.p (p_absorb_fuel fuel t l).1) = upper_entry (Node.p t) ∧
    upper_first_words (p_absorb_fuel fuel t l).2 = upper_first_words l := by
  intro fuel
  induction fuel with
  | zero => intro t l; exact ⟨rfl, rfl⟩
  | succ f ih =>
    intro t l
    rw [p_absorb_fuel]
    by_cases hd : ends_with_dot t = true
    · rw [if_pos hd]; exact ⟨rfl, rfl⟩
    · rw [if_neg hd]
      cases hs : scan_non_ignorable l with
      | none => simp only [hs]; exact ⟨trivial, trivial⟩
      | some r =>
        obtain ⟨pre, x, rest⟩ := r
        cases x with
        | p u =>
          by_cases hu : first_word_has_uppercase u = true
          · simp only [hs, if_pos hu]
            exact ⟨trivial, trivial⟩
          · have hu2 : first_word_has_uppercase u = false := by simpa using hu
            simp only [hs, if_neg hu]
            obtain ⟨ih1, ih2⟩ := ih (join_with_space t u) rest
            have hdec := (scan_decomp l pre (Node.p u) rest hs).1
            constructor
            · exact ih1.trans (upper_entry_join t u hu2)
            · rw [upper_first_words, List.filterMap_append, hdec, upper_first_words,
                List.filterMap_append]
              rw [List.filterMap_cons_none (by simp [upper_entry, hu2])]
              rw [show (p_absorb_fuel f (join_with_space t u) rest).2.filterMap upper_entry
                  = upper_first_words (p_absorb_fuel f (join_with_space t u) rest).2
                  from rfl, ih2]
              rfl
        | aside ps => simp only [hs]; exact ⟨trivial, trivial⟩
        | pnDiv s2 => simp only [hs]; exact ⟨trivial, trivial⟩
        | hlist hl => simp only [hs]; exact ⟨trivial, trivial⟩
        | htable rows => simp only [hs]; exact ⟨trivial, trivial⟩
        | media => simp only [hs]; exact ⟨trivial, trivial⟩
        | otherTag => simp only [hs]; exact ⟨trivial, trivial⟩
        | textNode s2 => simp only [hs]; exact ⟨trivial, trivial⟩
        | comment s2 => simp only [hs]; exact ⟨trivial, trivial⟩

theorem ensure_dots_census : ∀ (fuel : Nat) (l : List Node),
    upper_first_words (ensure_dots_aux fuel l) = upper_first_words l := by
  intro fuel
  induction fuel with
  | zero => intro l; rfl
  | succ f ih =>
    intro l
    cases l with
    | nil => rfl
    | cons n rest =>
      cases n with
      | p t =>
        simp only [ensure_dots_aux]
        obtain ⟨h1, h2⟩ := p_absorb_census rest.length t rest
        exact filterMap_cons_congr upper_entry _ _ _ _ h1 ((ih _).trans h2)
      | aside ps =>
        simp only [ensure_dots_aux]
        exact filterMap_cons_congr upper_entry _ _ _ _ rfl (ih rest)
      | pnDiv s2 =>
        simp only [ensure_dots_aux]
        exact filterMap_cons_congr upper_entry _ _ _ _ rfl (ih rest)
      | hlist hl =>
        simp only [ensure_dots_aux]
        exact filterMap_cons_congr upper_entry _ _ _ _ rfl (ih rest)
      | htable rows =>
        simp only [ensure_dots_aux]
        exact filterMap_cons_congr upper_entry _ _ _ _ rfl (ih rest)
      | media =>
        simp only [ensure_dots_aux]
        exact filterMap_cons_congr upper_entry _ _ _ _ rfl (ih rest)
      | otherTag =>
        simp only [ensure_dots_aux]
        exact filterMap_cons_congr upper_entry _ _ _ _ rfl (ih rest)
      | textNode s2 =>
        simp only [ensure_dots_aux]
        exact filterMap_cons_congr upper_entry _ _ _ _ rfl (ih rest)
      | comment s2 =>
        simp only [ensure_dots_aux]
        exact filterMap_cons_congr upper_entry _ _ _ _ rfl (ih rest)

/-- C6: the cross-paragraph merge never absorbs a sibling paragraph whose
first word begins with an uppercase letter: the absorption loop stops
without changing the paragraph or its siblings, and consequently the
census of uppercase first words of the paragraphs of any fragment is
invariant under `ensure_paragraphs_end_with_dot`. -/
theorem c6_uppercase_first_word_guard (fuel : Nat) (t : String)
    (l pre rest : List Node) (u : String)
    (hscan : scan_non_ignorable l = some (pre, Node.p u, rest))
    (hup : first_word_begins_uppercase u = true) :
    p_absorb_fuel fuel t l = (t, l) ∧
    ∀ m : List Node,
      upper_first_words (ensure_paragraphs_end_with_dot m) = upper_first_words m := by
  constructor
  · cases fuel with
    | zero => rfl
    | succ f =>
      rw [p_absorb_fuel]
      by_cases hd : ends_with_dot t = true
      · rw [if_pos hd]
      · rw [if_neg hd]
        simp only [hscan, if_pos (begins_implies_has u hup)]
  · intro m
    rw [ensure_paragraphs_end_with_dot]
    exact ensure_dots_census m.length m

/-- C6 witness: a paragraph "hi" (no trailing ".") followed by the sibling
paragraph "There", whose first word begins uppercase: nothing is merged. -/
theorem c6_witness :
    p_absorb_fuel 1 "hi" [Node.p "There"] = ("hi", [Node.p "There"]) ∧
    ∀ m : List Node,
      upper_first_words (ensure_paragraphs_end_with_dot m) = upper_first_words m :=
  c6_uppercase_first_word_guard 1 "hi" [Node.p "There"] [] [] "There" rfl (by decide)

/-! ### C4: the undefined `median` and the geometric fact path -/

theorem group_raw_flatten (tol : Rat) : ∀ (ts : List Token) (acc : List Line),
    (ts.foldl (fun lines t =>
      match lines.getLast? with
      | none => [Line.mk t.y [t]]
      | some cur =>
        if |t.y - cur.y| > tol then lines ++ [Line.mk t.y [t]]
        else lines.dropLast ++ [Line.mk cur.y (cur.items ++ [t])]) acc).flatMap (·.items)
      = acc.flatMap (·.items) ++ ts := by
  intro ts
  induction ts with
  | nil => intro acc; simp
  | cons t ts2 ih =>
    intro acc
    rw [List.foldl_cons, ih]
    have hstep : ((match acc.getLast? with
        | none => [Line.mk t.y [t]]
        | some cur =>
          if |t.y - cur.y| > tol then acc ++ [Line.mk t.y [t]]
          else acc.dropLast ++ [Line.mk cur.y (cur.items ++ [t])]) : List Line).flatMap
          (·.items) = acc.flatMap (·.items) ++ [t] := by
      cases hl : acc.getLast? with
      | none =>
        rcases List.getLast?_eq_none_iff.mp hl with rfl
        simp
      | some cur =>
        simp only
        split
        · rw [List.flatMap_append]; simp
        · have hacc : acc.dropLast ++ [cur] = acc :=
            List.dropLast_append_getLast? cur (by simp [Option.mem_def, hl])
          conv_rhs => rw [← hacc]
          rw [List.flatMap_append, List.flatMap_append]
          simp
    rw [hstep, List.append_assoc]
    rfl

theorem group_by_y_raw_mem (ts : List Token) (tol : Rat) (t : Token) :
    (∃ ln ∈ group_by_y_raw ts tol, t ∈ ln.items) ↔ t ∈ ts := by
  constructor
  · rintro ⟨ln, hln, ht⟩
    have hm : t ∈ (group_by_y_raw ts tol).flatMap (·.items) :=
      List.mem_flatMap.mpr ⟨ln, hln, ht⟩
    rw [group_by_y_raw, group_raw_flatten tol ts []] at hm
    simpa using hm
  · intro hts
    have hm : t ∈ ([] : List Line).flatMap (·.items) ++ ts := by simpa using hts
    rw [← group_raw_flatten tol ts [], ← group_by_y_raw] at hm
    exact List.mem_flatMap.mp hm

theorem group_by_y_mem_iff (ts : List Token) (tol : Rat) (t : Token) :
    (∃ ln ∈ group_by_y ts tol, t ∈ ln.items) ↔ t ∈ ts := by
  rw [group_by_y]
  constructor
  · rintro ⟨ln, hln, ht⟩
    obtain ⟨ln0, hln0, rfl⟩ := List.mem_map.mp hln
    have hmem : t ∈ ln0.items := ((List.perm_insertionSort xLe ln0.items).mem_iff).mp ht
    exact (group_by_y_raw_mem ts tol t).mp ⟨ln0, hln0, hmem⟩
  · intro hts
    obtain ⟨ln0, hln0, ht⟩ := (group_by_y_raw_mem ts tol t).mpr hts
    exact ⟨_, List.mem_map_of_mem _ hln0,
      ((List.perm_insertionSort xLe ln0.items).mem_iff).mpr ht⟩

theorem has_label_line_of_mem (ts : List Token) (t : Token) (ht : t ∈ ts)
    (hc : t.cls = some "styleid3") : has_label_line (group_by_y ts 6) = true := by
  obtain ⟨ln, hln, hti⟩ := (group_by_y_mem_iff ts 6 t).mpr ht
  rw [has_label_line, List.any_eq_true]
  exact ⟨ln, hln, List.any_eq_true.mpr ⟨t, hti, by simp [hc]⟩⟩

theorem detect_fact_table_error (tokens : List Token) (t : Token) (ht : t ∈ tokens)
    (hc : t.cls = some "styleid3")
    (hspan : 0 < x_span (tokens.filter
      (fun t => t.cls = some "styleid3" ∨ t.cls = some "styleid4"))) :
    detect_fact_table tokens = .error () := by
  have htoks : t ∈ tokens.filter
      (fun t => t.cls = some "styleid3" ∨ t.cls = some "styleid4") :=
    List.mem_filter.mpr ⟨ht, by simp [hc]⟩
  simp only [detect_fact_table]
  rw [if_neg (by
    intro hce
    rw [List.isEmpty_iff] at hce
    rw [hce] at htoks
    exact absurd htoks (List.not_mem_nil t))]
  rw [if_neg (not_le.mpr hspan)]
  rw [if_pos (has_label_line_of_mem _ t htoks hc)]

theorem detect_fact_table_not_some (tokens : List Token) (b : Block) :
    detect_fact_table tokens ≠ .ok (some b) := by
  intro h
  simp only [detect_fact_table] at h
  split at h
  · exact absurd h (by simp)
  · split at h
    · exact absurd h (by simp)
    · split at h
      · exact absurd h (by simp)
      · exact absurd h (by simp)

theorem render_blocks_eq (tokens : List Token) :
    render_blocks tokens = resolve_overlaps
      (match detect_comparison_table tokens with | some b => [b] | none => []) := by
  rw [render_blocks]
  congr 1
  cases hf : detect_fact_table tokens with
  | error e => simp [hf]
  | ok o =>
    cases o with
    | none => simp [hf]
    | some b => exact absurd hf (detect_fact_table_not_some tokens b)

theorem resolve_fold_mem : ∀ (l : List Block) (acc : List Block × Finset Nat) (b : Block),
    b ∈ (l.foldl (fun acc b =>
        if overlap_frac b.used acc.2 < 3 / 10 then (acc.1 ++ [b], acc.2 ∪ b.used)
        else acc) acc).1 →
    b ∈ acc.1 ∨ b ∈ l := by
  intro l
  induction l with
  | nil => intro acc b h; exact Or.inl h
  | cons x l2 ih =>
    intro acc b h
    rw [List.foldl_cons] at h
    rcases ih _ b h with h2 | h2
    · split at h2
      · rcases List.mem_append.mp h2 with h3 | h3
        · exact Or.inl h3
        · exact Or.inr (by rw [List.mem_singleton.mp h3]; exact List.mem_cons_self x l2)
      · exact Or.inl h2
    · exact Or.inr (List.mem_cons_of_mem x h2)

theorem resolve_overlaps_mem (blocks : List Block) (b : Block)
    (h : b ∈ resolve_overlaps blocks) : b ∈ blocks := by
  rw [resolve_overlaps] at h
  rcases resolve_fold_mem _ _ b h with h2 | h2
  · exact absurd h2 (List.not_mem_nil b)
  · exact ((List.perm_insertionSort blockGe blocks).mem_iff).mp h2

theorem merge_col_subset (l : List Token) (cls : String) (u : Token)
    (h : u ∈ merge_col l cls) : u ∈ l := by
  rw [merge_col] at h
  exact (List.mem_filter.mp (((List.perm_insertionSort tokLe _).mem_iff).mp h)).1

set_option maxHeartbeats 1600000 in
theorem comparison_row_step_fst (toks2 : List Token) (hy a0 a1 a2 : Rat)
    (lls : List Line) (acc : Finset Nat × List (List String) × Nat) (j : Nat) (i : Nat)
    (hi : i ∈ (comparison_row_step toks2 hy a0 a1 a2 lls acc j).1) :
    i ∈ acc.1 ∨ ∃ u, u ∈ toks2 ∧ u.idx = i := by
  simp only [comparison_row_step, apply_ite Prod.fst, ite_self] at hi
  have hused : ∀ k : List Token, (∀ u ∈ k, u ∈ toks2) →
      i ∈ (k.map (·.idx)).toFinset → ∃ u, u ∈ toks2 ∧ u.idx = i := by
    intro k hk hi3
    obtain ⟨u, hu, he⟩ := List.mem_map.mp (List.mem_toFinset.mp hi3)
    exact ⟨u, hk u hu, he⟩
  rcases Finset.mem_union.mp hi with hi3 | hi3
  · rcases Finset.mem_union.mp hi3 with hi4 | hi4
    · rcases Finset.mem_union.mp hi4 with hi5 | hi5
      · exact Or.inl hi5
      · exact Or.inr (hused _ (fun u hu =>
          (List.mem_filter.mp (List.mem_filter.mp (merge_col_subset _ _ u hu)).1).1) hi5)
    · exact Or.inr (hused _ (fun u hu =>
        (List.mem_filter.mp (List.mem_filter.mp (merge_col_subset _ _ u hu)).1).1) hi4)
  · exact Or.inr (hused _ (fun u hu =>
      (List.mem_filter.mp (List.mem_filter.mp (merge_col_subset _ _ u hu)).1).1) hi3)

theorem comparison_fold_used (toks2 : List Token) (hy a0 a1 a2 : Rat) (lls : List Line)
    (P : Nat → Prop) (hP : ∀ u ∈ toks2, P u.idx) :
    ∀ (is : List Nat) (acc : Finset Nat × List (List String) × Nat),
      (∀ i ∈ acc.1, P i) →
      ∀ i ∈ (is.foldl (comparison_row_step toks2 hy a0 a1 a2 lls) acc).1, P i := by
  intro is
  induction is with
  | nil => intro acc hacc i hi; exact hacc i hi
  | cons j js ih =>
    intro acc hacc i hi
    rw [List.foldl_cons] at hi
    refine ih _ ?_ i hi
    intro i2 hi2
    rcases comparison_row_step_fst toks2 hy a0 a1 a2 lls acc j i2 hi2 with h2 | ⟨u, hu, he⟩
    · exact hacc i2 h2
    · exact he ▸ hP u hu

set_option maxHeartbeats 1600000 in
theorem detect_comparison_spec (tokens : List Token) (b : Block)
    (h : detect_comparison_table tokens = some b) :
    b.kind = "comparison_3col" ∧
    ∀ i ∈ b.used, ∃ u, u ∈ tokens ∧ u.idx = i ∧
      (u.cls = some "styleid4" ∨ u.cls = some "styleid5") := by
  simp only [detect_comparison_table] at h
  split at h
  · exact absurd h (by simp)
  · split at h
    · exact absurd h (by simp)
    · split at h
      · exact absurd h (by simp)
      · rename_i headerLine hhead
        split at h
        case _ c0 c1 c2 ht3 =>
          split at h
          · exact absurd h (by simp)
          · split at h
            · exact absurd h (by simp)
            · split at h
              · exact absurd h (by simp)
              · have hb := (Option.some.inj h).symm
                subst hb
                have htoksP : ∀ u ∈ tokens.filter
                    (fun t => t.cls = some "styleid4" ∨ t.cls = some "styleid5"),
                    ∃ w, w ∈ tokens ∧ w.idx = u.idx ∧
                      (w.cls = some "styleid4" ∨ w.cls = some "styleid5") := by
                  intro u hu
                  obtain ⟨hu1, hu2⟩ := List.mem_filter.mp hu
                  exact ⟨u, hu1, rfl, by simpa using hu2⟩
                have hhdr : headerLine ∈ group_by_y (List.insertionSort tokLe
                    ((tokens.filter (fun t => t.cls = some "styleid4"
                      ∨ t.cls = some "styleid5")).filter
                      (fun t => t.cls = some "styleid4"))) 8 :=
                  List.mem_of_mem_filter (List.mem_of_mem_head? hhead)
                have hc_mem : ∀ c : Token, c ∈ [c0, c1, c2] →
                    ∃ w, w ∈ tokens ∧ w.idx = c.idx ∧
                      (w.cls = some "styleid4" ∨ w.cls = some "styleid5") := by
                  intro c hcm
                  have h1 : c ∈ (List.insertionSort xLe headerLine.items).take 3 := by
                    rw [ht3]; exact hcm
                  have h2 : c ∈ headerLine.items :=
                    ((List.perm_insertionSort xLe headerLine.items).mem_iff).mp
                      (List.take_subset 3 _ h1)
                  have h3 := (group_by_y_mem_iff _ 8 c).mp ⟨headerLine, hhdr, h2⟩
                  have h4 := (List.mem_filter.mp
                    (((List.perm_insertionSort tokLe _).mem_iff).mp h3)).1
                  exact htoksP c h4
                refine ⟨rfl, ?_⟩
                intro i hi
                refine comparison_fold_used _ _ _ _ _ _
                  (fun u => ∃ w, w ∈ tokens ∧ w.idx = u ∧
                    (w.cls = some "styleid4" ∨ w.cls = some "styleid5"))
                  (fun u hu => htoksP u hu) _ _ ?_ i hi
                intro i0 hi0
                rcases Finset.mem_insert.mp hi0 with h5 | h5
                · exact h5 ▸ hc_mem c0 (by simp)
                rcases Finset.mem_insert.mp h5 with h6 | h6
                · exact h6 ▸ hc_mem c1 (by simp)
                · exact (Finset.mem_singleton.mp h6) ▸ hc_mem c2 (by simp)
        case _ hne =>
          exact absurd h (by simp)

theorem final_blocks_spec (tokens : List Token) :
    ∀ b ∈ final_blocks tokens, b.kind = "comparison_3col" ∧
      ∀ i ∈ b.used, ∃ u, u ∈ tokens ∧ u.idx = i ∧
        (u.cls = some "styleid4" ∨ u.cls = some "styleid5") := by
  intro b hb
  rw [final_blocks] at hb
  obtain ⟨b0, hb0, heq⟩ := List.mem_map.mp hb
  rw [render_blocks_eq] at hb0
  have hb0m := resolve_overlaps_mem _ _ hb0
  cases hd : detect_comparison_table tokens with
  | none => rw [hd] at hb0m; exact absurd hb0m (List.not_mem_nil b0)
  | some c =>
    rw [hd] at hb0m
    rcases List.mem_singleton.mp hb0m with rfl
    obtain ⟨hkind, hused⟩ := detect_comparison_spec tokens b0 hd
    have hmf : maybe_fact_to_ol b0 = none := by
      rw [maybe_fact_to_ol, if_neg (by rw [hkind]; decide)]
    simp only [hmf] at heq
    subst heq
    exact ⟨hkind, hused⟩

theorem blocks_used_subset : ∀ (bs : List Block) (acc : Finset Nat) (i : Nat),
    i ∈ bs.foldl (fun acc b => acc ∪ b.used) acc → i ∈ acc ∨ ∃ b ∈ bs, i ∈ b.used := by
  intro bs
  induction bs with
  | nil => intro acc i h; exact Or.inl h
  | cons b bs2 ih =>
    intro acc i h
    rw [List.foldl_cons] at h
    rcases ih _ i h with h2 | ⟨b2, hb2, hib2⟩
    · rcases Finset.mem_union.mp h2 with h3 | h3
      · exact Or.inl h3
      · exact Or.inr ⟨b, List.mem_cons_self b bs2, h3⟩
    · exact Or.inr ⟨b2, List.mem_cons_of_mem b hb2, hib2⟩

theorem well_indexed_inj (tokens : List Token) (h : well_indexed tokens = true) :
    ∀ u v, u ∈ tokens → v ∈ tokens → u.idx = v.idx → u = v := by
  have hidx : ∀ (i : Nat) (hi : i < tokens.length), tokens[i].idx = i := by
    rw [well_indexed, List.all_eq_true] at h
    intro i hi
    have := h (i, tokens[i])
      (List.mem_enum_iff_getElem?.mpr (List.getElem?_eq_getElem hi))
    simpa using this
  intro u v hu hv he
  obtain ⟨i, hi, rfl⟩ := List.mem_iff_getElem.mp hu
  obtain ⟨j, hj, rfl⟩ := List.mem_iff_getElem.mp hv
  have h1 := hidx i hi
  have h2 := hidx j hj
  have : i = j := by rw [← h1, ← h2, he]
  subst this
  rfl

/-- C4: the undefined name `median` is reached — and `detect_fact_table`
raises `NameError` — only when a grouped line contains a label-class
token AND the earlier guards pass (in particular the filtered tokens'
x-span must be positive); under those conditions the error is certain,
`render_page_with_tables` swallows it, every surviving block is a
comparison block (a `fact_2col` / `ol_from_fact` block is never produced
on the geometric path), and the label token is rendered as a plain
paragraph token. -/
theorem c4_median_name_error (tokens : List Token) (t : Token)
    (ht : t ∈ tokens) (hc : t.cls = some "styleid3")
    (hspan : 0 < x_span (tokens.filter
      (fun t => t.cls = some "styleid3" ∨ t.cls = some "styleid4")))
    (hwi : well_indexed tokens = true) :
    detect_fact_table tokens = .error () ∧
    (∀ b ∈ final_blocks tokens, b.kind = "comparison_3col") ∧
    t ∈ non_table_tokens tokens := by
  refine ⟨detect_fact_table_error tokens t ht hc hspan,
    fun b hb => (final_blocks_spec tokens b hb).1, ?_⟩
  rw [non_table_tokens, List.mem_filter]
  refine ⟨ht, ?_⟩
  simp only [decide_eq_true_eq]
  intro hmem
  rw [blocks_used] at hmem
  rcases blocks_used_subset _ _ _ hmem with h2 | ⟨b, hb, hib⟩
  · exact absurd h2 (Finset.not_mem_empty _)
  · obtain ⟨u, hu, hui, hucls⟩ := (final_blocks_spec tokens b hb).2 _ hib
    have : u = t := well_indexed_inj tokens hwi u t hu ht hui
    subst this
    rcases hucls with h4 | h4 <;> rw [hc] at h4 <;> exact absurd h4 (by simp)

/-- C4 counterexample: a token list with a label-class token whose
filtered x-span is zero returns `None` from `detect_fact_table` without
ever reaching `median` — no `NameError` is raised, refuting "for every
token list containing at least one label-class token". -/
theorem c4_counterexample :
    detect_fact_table [Token.mk 0 5 (some "styleid3") "7" 0] = .ok none := rfl

/-- C4 witness: a two-token list (one label-class, one value-class, distinct
x) reaches the `median` call and errors; its label token stays a plain
paragraph token. -/
theorem c4_witness :
    detect_fact_table [Token.mk 0 0 (some "styleid3") "a" 0,
        Token.mk 0 5 (some "styleid4") "b" 1] = .error () ∧
    (∀ b ∈ final_blocks [Token.mk 0 0 (some "styleid3") "a" 0,
        Token.mk 0 5 (some "styleid4") "b" 1], b.kind = "comparison_3col") ∧
    Token.mk 0 0 (some "styleid3") "a" 0 ∈ non_table_tokens
      [Token.mk 0 0 (some "styleid3") "a" 0, Token.mk 0 5 (some "styleid4") "b" 1] :=
  c4_median_name_error
    [Token.mk 0 0 (some "styleid3") "a" 0, Token.mk 0 5 (some "styleid4") "b" 1]
    (Token.mk 0 0 (some "styleid3") "a" 0)
    (by decide) (by decide) (by decide) (by decide)

/-! ### C9: token collection is sorted, stably, with positional indices -/

theorem tokLe_of_key_eq (a b : Token) (hk : tokKey b = tokKey a) : tokLe a b := by
  unfold tokKey at hk
  simp only [Prod.mk.injEq] at hk
  exact Or.inr ⟨hk.1.symm, le_of_eq hk.2.symm⟩

theorem key_ne_of_not_tokLe (a b : Token) (h : ¬ tokLe a b) : tokKey b ≠ tokKey a :=
  fun hk => h (tokLe_of_key_eq a b hk)

theorem filter_key_orderedInsert (a : Token) (c : Rat × Rat) :
    ∀ l : List Token, (List.orderedInsert tokLe a l).filter (fun t => tokKey t = c) =
      if tokKey a = c then a :: l.filter (fun t => tokKey t = c)
      else l.filter (fun t => tokKey t = c) := by
  intro l
  induction l with
  | nil =>
    by_cases hk : tokKey a = c <;> simp [List.orderedInsert, List.filter_cons, hk]
  | cons b t ih =>
    rw [List.orderedInsert]
    by_cases hr : tokLe a b
    · rw [if_pos hr]
      by_cases hk : tokKey a = c <;> simp [List.filter_cons, hk]
    · rw [if_neg hr]
      have hbk : tokKey b ≠ tokKey a := key_ne_of_not_tokLe a b hr
      by_cases hbc : tokKey b = c
      · have hk : ¬ tokKey a = c := fun hcon => hbk (hbc.trans hcon.symm)
        simp [List.filter_cons, hbc, ih, hk]
      · by_cases hk : tokKey a = c <;> simp [List.filter_cons, hbc, ih, hk]

theorem insertionSort_stable_key (c : Rat × Rat) :
    ∀ l : List Token, (List.insertionSort tokLe l).filter (fun t => tokKey t = c) =
      l.filter (fun t => tokKey t = c) := by
  intro l
  induction l with
  | nil => rfl
  | cons a t ih =>
    rw [List.insertionSort, filter_key_orderedInsert, ih]
    by_cases hk : tokKey a = c <;> simp [List.filter_cons, hk]

theorem collect_tokens_length (spans : List Span) (pos : List (String × Rat × Rat))
    (allow : Option (List (Option String))) :
    (collect_tokens spans pos allow).length = (collect_sorted spans pos allow).length := by
  unfold collect_tokens
  simp

theorem collect_tokens_get (spans : List Span) (pos : List (String × Rat × Rat))
    (allow : Option (List (Option String))) (k : Nat)
    (hk : k < (collect_tokens spans pos allow).length) :
    (collect_tokens spans pos allow).get ⟨k, hk⟩ =
      { (collect_sorted spans pos allow).get
          ⟨k, by rw [← collect_tokens_length spans pos allow]; exact hk⟩ with idx := k } := by
  unfold collect_tokens
  simp [List.get_eq_getElem, List.getElem_map, List.getElem_enum]

/-- C9: the token list of `collect_tokens` is sorted by the total order
(y primary, x secondary); the sort breaks (y, x) ties stably (tokens with
a given key keep their pre-sort relative order); each token's assigned
index is its position in the list; and collection is deterministic. -/
theorem c9_collect_tokens_sorted (spans : List Span) (pos : List (String × Rat × Rat))
    (allow : Option (List (Option String))) :
    List.Sorted tokLe (collect_tokens spans pos allow) ∧
    (∀ k (hk : k < (collect_tokens spans pos allow).length),
      ((collect_tokens spans pos allow).get ⟨k, hk⟩).idx = k) ∧
    (∀ c : Rat × Rat, (collect_sorted spans pos allow).filter (fun t => tokKey t = c) =
      (collect_raw spans pos allow).filter (fun t => tokKey t = c)) ∧
    collect_tokens spans pos allow = collect_tokens spans pos allow := by
  have hsort : List.Sorted tokLe (collect_sorted spans pos allow) :=
    List.sorted_insertionSort tokLe _
  refine ⟨?_, ?_, ?_, rfl⟩
  · refine List.pairwise_iff_get.mpr ?_
    intro i j hij
    rw [collect_tokens_get, collect_tokens_get]
    have := List.pairwise_iff_get.mp hsort
        ⟨i.1, by rw [← collect_tokens_length spans pos allow]; exact i.2⟩
        ⟨j.1, by rw [← collect_tokens_length spans pos allow]; exact j.2⟩ hij
    exact this
  · intro k hk
    rw [collect_tokens_get]
  · intro c
    exact insertionSort_stable_key c (collect_raw spans pos allow)

/-- C9 witness: the positional-index clause evaluated on a concrete
collection. -/
theorem c9_witness :
    ((collect_tokens
        [Span.mk (some "s1") ["styleid3"] "hi", Span.mk none ["c2", "styleid4"] "lo"]
        [("s1", (3, 7)), ("c2", (1, 2))] none).get ⟨0, by decide⟩).idx = 0 := by
  exact (c9_collect_tokens_sorted
    [Span.mk (some "s1") ["styleid3"] "hi", Span.mk none ["c2", "styleid4"] "lo"]
    [("s1", (3, 7)), ("c2", (1, 2))] none).2.1 0 (by decide)

end ReadingCore
